import Mathlib

/-!
Verification development for the nMigen RTLIL backend
(`src/nmigen/back/rtlil.py`).

The backend is shallowly embedded as executable Lean functions.  Emitted
RTLIL text is modelled as a list of emission events; the sigspec strings
built by the value compilers are modelled by the inductive `SigSpec`,
whose constructors correspond one-to-one to the format strings used by
the source (`width'bits` literals, wire references, single-bit and range
selects, and brace groups).  Recursive compilers take a fuel argument so
that every definition is structurally recursive and kernel-computable;
running out of fuel is reported as the distinguished error
`Err.outOfFuel`, which a sufficiently large fuel never produces.

The front-end design-graph types (`Signal`, fragments, statements,
clock domains, constant normalization and expression shapes), which live
outside `src/`, are modelled from the specification as noted on each
definition.
-/

set_option linter.unusedVariables false

/-- Errors that the embedded backend can raise.  They correspond to the
Python exceptions raised by `rtlil.py`: `TypeError`, `NotImplementedError`,
`ValueError`, `KeyError`, `AssertionError` and `IndexError`; `outOfFuel`
is the artifact of the fuel-based embedding. -/
inductive Err where
  | typeError
  | notImplementedError
  | valueError (msg : String)
  | keyError
  | assertionError
  | indexError
  | attributeError
  | outOfFuel
deriving DecidableEq, Repr

/-- Attribute values: Python strings are quote-escaped, other values are
rendered through `int(value)` (`_ModuleBuilder.attribute`). -/
inductive AttrVal where
  | str (s : String)
  | int (i : Int)
deriving DecidableEq, Repr

/-- Modelled from the spec: a design `Signal` is a bit-vector wire with a
width, signedness, reset value, source location and attribute map (spec
section 3).  The front-end class lives in `nmigen/hdl/ast.py`, outside
`src/`.  The `uid` field stands for Python object identity, which is what
`ast.ValueDict` keys on. -/
structure Signal where
  uid : Nat
  name : String
  nbits : Nat
  signed : Bool
  reset : Int
  attrs : List (String × AttrVal)
  srcFile : String
  srcLine : Nat
deriving DecidableEq, Repr

/-- Sigspec expressions produced by the value compilers.  Each constructor
mirrors one of the string shapes built by `rtlil.py`:
`constBits n b` is the literal rendered by `on_Const` as n-quote-b;
`wire nm` a wire reference; `bitSel s i` the indexed select rendered by
`on_Slice`; `rangeSel s hi lo` the range select; `group es` the
brace-group rendered by `on_Cat` and `on_Repl`. -/
inductive SigSpec where
  | constBits (nbits : Nat) (bits : String)
  | wire (name : String)
  | bitSel (base : SigSpec) (idx : Nat)
  | rangeSel (base : SigSpec) (hi lo : Nat)
  | group (elems : List SigSpec)

/-- Modelled from the spec: the expression tree handled by the value
compilers (spec section 3): constant, signal reference, slice,
concatenation, replication, operator (unary, binary, ternary mux), plus
the two variants unsupported by this backend (dynamic part-select and
array multiplexer) and clock/reset references.  Operator nodes carry the
shape assigned by the front-end (the tree arrives already
width/sign-typed, spec section 6). -/
inductive Value where
  | const (value : Int) (nbits : Nat) (signed : Bool)
  | signal (s : Signal)
  | slice (v : Value) (start stop : Nat)
  | cat (operands : List Value)
  | repl (v : Value) (count : Nat)
  | operator (op : String) (operands : List Value) (sh : Nat × Bool)
      (srcFile : String) (srcLine : Nat)
  | part (v : Value) (offset : Value) (width : Nat)
  | arrayProxy
  | clockSignal (domain : String)
  | resetSignal (domain : String)

/-- Modelled from the spec: the shape (width, signedness) of an
expression, as computed by the front-end (`Value.shape` in
`nmigen/hdl/ast.py`, outside `src/`): a slice has width `stop - start`
and is unsigned, a concatenation the sum of its operand widths, a
replication `count` times the operand width; operator nodes report the
shape stored by the front-end. -/
def Value.shape : Value → Nat × Bool
  | .const _ n s => (n, s)
  | .signal s => (s.nbits, s.signed)
  | .slice _ a b => (b - a, false)
  | .cat ops => (widths ops, false)
  | .repl v n => ((Value.shape v).1 * n, false)
  | .operator _ _ sh _ _ => sh
  | .part _ _ w => (w, false)
  | .arrayProxy => (0, false)
  | .clockSignal _ => (1, false)
  | .resetSignal _ => (1, false)
where
  /-- Sum of the widths of a list of operands. -/
  widths : List Value → Nat
  | [] => 0
  | v :: vs => (Value.shape v).1 + widths vs

/-- Width of an expression (Python `len(value)` equals `shape()[0]`). -/
def Value.width (v : Value) : Nat := v.shape.1

/-- Signedness of an expression. -/
def Value.vsigned (v : Value) : Bool := v.shape.2

/-- Modelled from the spec: well-formedness of the front-end expression
tree (spec section 3: fragments are fully built and validated by the
elaboration collaborator before lowering starts).  A slice is in bounds
and either non-empty or spans the whole operand; a ternary mux node is
given a shape at least as wide as both data operands. -/
def Value.wf : Value → Prop
  | .const _ _ _ => True
  | .signal _ => True
  | .slice v a b => (a < b ∨ (a = 0 ∧ b = v.width)) ∧ b ≤ v.width ∧ v.wf
  | .cat ops => wfList ops
  | .repl v _ => v.wf
  | .operator _ ops sh _ _ =>
      (match ops with
       | [_, l, r] => l.width ≤ sh.1 ∧ r.width ≤ sh.1
       | _ => True) ∧
      wfList ops
  | .part v _ _ => v.wf
  | .arrayProxy => True
  | .clockSignal _ => True
  | .resetSignal _ => True
where
  /-- Well-formedness of every operand in a list. -/
  wfList : List Value → Prop
  | [] => True
  | v :: vs => v.wf ∧ wfList vs

/-- Statements accepted by the statement pass: `Assign` and `Switch`
(spec section 3); `other` stands for any other statement kind, which the
pass rejects with `TypeError`.  Switch case labels are bit-pattern
strings, with `none` denoting the default case.  Modelled from the spec:
the front-end statement classes live outside `src/`. -/
inductive Stmt where
  | assign (lhs rhs : Value)
  | switch (test : Value) (cases : List (Option String × List Stmt))
  | other

/-- Modelled from the spec: a clock domain with clock signal, optional
reset signal and reset kind (spec section 3). -/
structure ClockDomain where
  clk : Signal
  rst : Option Signal
  asyncReset : Bool

/-- Modelled from the spec: a design fragment (spec section 3): ordered
per-domain driven-signal groups (`drivers`, keyed by `none` for the
combinational domain), ordered statement list, domain declarations,
ordered port map (direction strings are the front-end codes `i`, `o`,
`io`), and ordered (child, instance-name) list. -/
inductive Fragment where
  | mk (drivers : List (Option String × List Signal))
       (statements : List Stmt)
       (domains : List (String × ClockDomain))
       (ports : List (Signal × String))
       (subfragments : List (Fragment × Option String))

/-- Driven-signal groups of a fragment. -/
def Fragment.drivers : Fragment → List (Option String × List Signal)
  | .mk d _ _ _ _ => d

/-- Statement list of a fragment. -/
def Fragment.statements : Fragment → List Stmt
  | .mk _ s _ _ _ => s

/-- Domain declarations of a fragment. -/
def Fragment.domains : Fragment → List (String × ClockDomain)
  | .mk _ _ d _ _ => d

/-- Ordered port map of a fragment. -/
def Fragment.ports : Fragment → List (Signal × String)
  | .mk _ _ _ p _ => p

/-- Ordered (child, instance-name) list of a fragment. -/
def Fragment.subfragments : Fragment → List (Fragment × Option String)
  | .mk _ _ _ _ s => s

/-- Modelled from the spec: `Fragment.iter_drivers` (in `nmigen/hdl/ir.py`,
outside `src/`) enumerates (domain, signal) pairs over the per-domain
driven-signal groups, in order. -/
def Fragment.iterDrivers (f : Fragment) : List (Option String × Signal) :=
  f.drivers.flatMap (fun p => p.2.map (fun s => (p.1, s)))

/-- Modelled from the spec: `Fragment.iter_sync` enumerates (domain,
signal) pairs of the synchronous domains only. -/
def Fragment.iterSync (f : Fragment) : List (String × Signal) :=
  f.drivers.flatMap (fun p =>
    match p.1 with
    | none => []
    | some d => p.2.map (fun s => (d, s)))

/-- Association-list lookup keyed by decidable equality (the embedding of
Python dict lookups). -/
def assoc {α β : Type} [DecidableEq α] : List (α × β) → α → Option β
  | [], _ => none
  | p :: ps, a => if p.1 = a then some p.2 else assoc ps a

/-- Module-level emission events: attribute lines, wire declarations
(with optional port id and kind), cells and connects, in the order
`_ModuleBuilder` writes them. -/
inductive MEvent where
  | attr (name : String) (value : AttrVal)
  | wireDecl (width : Nat) (port : Option (Nat × String)) (name : String)
  | cell (kind : String) (name : String)
      (params : List (String × Int)) (ports : List (String × SigSpec))
  | connect (lhs rhs : String)

/-- Process-level emission events, in the order `_ProcessBuilder`,
`_CaseBuilder`, `_SwitchBuilder` and `_SyncBuilder` write them. -/
inductive PEvent where
  | processStart (name : String)
  | assign (lhs rhs : SigSpec)
  | switchStart (cond : SigSpec)
  | switchEnd
  | caseStart (label : Option String)
  | syncStart (kind : String) (cond : Option String)
  | update (lhs : String) (rhs : SigSpec)

/-- Per-module compiler state: the module namer (`_Namer` fields `_index`
and `_names`), the module and process event logs (most recent first), the
declared wires with their widths, and the `_ValueCompilerState` fields
`wires`, `driven`, `ports` and `sub_name`. -/
structure ModState where
  index : Nat
  names : List String
  mlog : List MEvent
  plog : List PEvent
  decls : List (String × Nat)
  wires : List (Signal × (String × Option String))
  driven : List (Signal × Bool)
  ports : List (Signal × (Nat × String))
  subName : Option String

/-- Fresh per-module state, created at the start of each fragment
activation. -/
def ModState.init : ModState :=
  { index := 0, names := [], mlog := [], plog := [], decls := [],
    wires := [], driven := [], ports := [], subName := none }

/-- The compilation monad: state plus fail-fast errors. -/
def M (α : Type) : Type := ModState → Except Err (α × ModState)

instance : Monad M where
  pure a := fun st => .ok (a, st)
  bind m f := fun st =>
    match m st with
    | .ok (a, st') => f a st'
    | .error e => .error e

/-- Raise an error (Python `raise`). -/
def M.throw {α : Type} (e : Err) : M α := fun _ => .error e

/-- Read the current state. -/
def M.get : M ModState := fun st => .ok (st, st)

/-- Replace the current state. -/
def M.set (st : ModState) : M Unit := fun _ => .ok ((), st)

/-- Apply a state update. -/
def M.modify (f : ModState → ModState) : M Unit := fun st => .ok ((), f st)

/-- Binary digit rendering of a natural number, most-significant bit
first, no padding (the integer branch of a Python format with binary
conversion, as used by `on_Const`). -/
def natBin (n : Nat) : String := String.mk (Nat.toDigits 2 n)

/-- Binary rendering of an integer: Python renders a negative integer as
a minus sign followed by the binary digits of its absolute value. -/
def intBin (i : Int) : String :=
  if i < 0 then "-" ++ natBin i.natAbs else natBin i.toNat

/-- Collision loop of `_Namer._make_name`: while the candidate name is
taken, increment the counter, append a dollar-separated counter suffix
and retry.  The loop is given explicit fuel so the definition is
structural; `makeNameCore` passes fuel that provably suffices
(`collide_isSome`), so the loop always ends exactly as in the source. -/
def collide (names : List String) : Nat → String → Nat → Option (String × Nat)
  | 0, _, _ => none
  | fuel + 1, name, index =>
    if name ∈ names then
      collide names fuel (name ++ "$" ++ toString (index + 1)) (index + 1)
    else
      some (name, index)

/-- Embedding of `_Namer._make_name(name, local)`: synthesize a
counter-based name when none is requested; escape a requested non-local
name with a leading backslash unless it already starts with one of the
two reserved markers (a backslash or a dollar sign; reading the first
character of an empty name raises `IndexError` in Python); then run the
collision loop and register the result.  Returns the name, the new
counter and the new used-name set.  The candidate step is split out as
`candidateName`. -/
def candidateName (index : Nat) (name? : Option String) (lcl : Bool) :
    Except Err (String × Nat) :=
  match name? with
  | none => .ok ("$" ++ toString (index + 1), index + 1)
  | some nm =>
    if lcl then .ok (nm, index)
    else
      match nm.data with
      | [] => .error .indexError
      | c :: _ =>
        if c = '\\' ∨ c = '$' then .ok (nm, index) else .ok ("\\" ++ nm, index)

def makeNameCore (index : Nat) (names : List String) (name? : Option String)
    (lcl : Bool) : Except Err (String × Nat × List String) :=
  match candidateName index name? lcl with
  | .error e => .error e
  | .ok (cand, idx) =>
    match collide names (names.countP (fun n => cand.length ≤ n.length) + 1)
        cand idx with
    | some (nm, idx') => .ok (nm, idx', nm :: names)
    | none => .error .outOfFuel

/-- Allocate a name from the module-level namer (`_ModuleBuilder` is a
`_Namer`). -/
def M.makeName (name? : Option String) (lcl : Bool) : M String := fun st =>
  match makeNameCore st.index st.names name? lcl with
  | .ok (nm, i, names) => .ok (nm, { st with index := i, names := names })
  | .error e => .error e

/-- Append a module-level event. -/
def M.emitM (e : MEvent) : M Unit :=
  M.modify fun st => { st with mlog := e :: st.mlog }

/-- Append a process-level event. -/
def M.emitP (e : PEvent) : M Unit :=
  M.modify fun st => { st with plog := e :: st.plog }

/-- Embedding of `_Bufferer._src`: emit a source-location attribute when
the location string is non-empty. -/
def M.srcAttr (src : String) : M Unit :=
  if src = "" then pure () else M.emitM (.attr "src" (.str src))

/-- Record a wire declaration: the emitted wire line, and its declared
width for later width computations. -/
def M.declWire (width : Nat) (port : Option (Nat × String)) (name : String) :
    M Unit :=
  M.modify fun st =>
    { st with mlog := .wireDecl width port name :: st.mlog,
              decls := (name, width) :: st.decls }

/-- Embedding of `_ModuleBuilder.wire`: emit the source attribute,
allocate a non-local name, check the port kind when a port id is given
(the assertion in the source), and emit the declaration. -/
def M.wire (width : Nat) (portId : Option Nat) (portKind : Option String)
    (name? : Option String) (src : String) : M String := do
  M.srcAttr src
  let name ← M.makeName name? false
  match portId with
  | none => M.declWire width none name
  | some pid =>
    match portKind with
    | some k =>
      if k = "input" ∨ k = "output" ∨ k = "inout" then
        M.declWire width (some (pid, k)) name
      else M.throw .assertionError
    | none => M.throw .assertionError
  pure name

/-- Embedding of `_ModuleBuilder.cell`: emit the source attribute,
allocate a local name, and emit the cell with its parameters and port
connections (all parameter values at the call sites are integers or
booleans, which Python renders through `int(value)`). -/
def M.cell (kind : String) (name? : Option String)
    (params : List (String × Int)) (ports : List (String × SigSpec))
    (src : String) : M String := do
  M.srcAttr src
  let name ← M.makeName name? true
  M.emitM (.cell kind name params ports)
  pure name

/-- Embedding of `_ModuleBuilder.attribute`. -/
def M.attribute (name : String) (value : AttrVal) : M Unit :=
  M.emitM (.attr name value)

/-- Conversion of a Python boolean parameter through `int(value)`. -/
def boolInt (b : Bool) : Int := if b then 1 else 0

/-- Embedding of the module-level `src` helper: format a (file, line)
source location. -/
def srcOf (s : Signal) : String := s.srcFile ++ ":" ++ toString s.srcLine

/-- Embedding of `_ValueCompilerState.add_driven`. -/
def M.addDriven (s : Signal) (sync : Bool) : M Unit :=
  M.modify fun st => { st with driven := (s, sync) :: st.driven }

/-- Embedding of `_ValueCompilerState.add_port`: assert the front-end
direction code, translate it to the RTLIL port kind, and record the
port with its allocation-order index. -/
def M.addPort (s : Signal) (kind : String) : M Unit := fun st =>
  if kind = "i" ∨ kind = "o" ∨ kind = "io" then
    let k := if kind = "i" then "input"
             else if kind = "o" then "output" else "inout"
    .ok ((), { st with ports := (s, (st.ports.length, k)) :: st.ports })
  else .error .assertionError

/-- Emit the attribute lines for a signal's attribute map
(`_ValueCompilerState.resolve`, attribute loop). -/
def M.signalAttrs : List (String × AttrVal) → M Unit
  | [] => pure ()
  | (an, av) :: rest => do
    M.attribute an av
    M.signalAttrs rest

/-- First-use path of `_ValueCompilerState.resolve`: synthesize the
current wire (with the hierarchy prefix when active, the port id and
kind when the signal is a port, and the signal's attributes), a paired
next wire exactly when the signal is registered as driven, and cache the
pair. -/
def M.resolveFresh (s : Signal) : M (String × Option String) := do
  let st ← M.get
  let portInfo := assoc st.ports s
  let wireName :=
    match st.subName with
    | some sub => sub ++ "_" ++ s.name
    | none => s.name
  M.signalAttrs s.attrs
  let wireCurr ← M.wire s.nbits (portInfo.map (fun p => p.1))
    (portInfo.map (fun p => p.2)) (some wireName) (srcOf s)
  let wireNext ←
    if (assoc st.driven s).isSome then
      (fun n => some n) <$> M.wire s.nbits none none
        (some (wireCurr ++ "$next")) (srcOf s)
    else
      pure (none : Option String)
  M.modify fun st' => { st' with wires := (s, (wireCurr, wireNext)) :: st'.wires }
  pure (wireCurr, wireNext)

/-- Embedding of `_ValueCompilerState.resolve`: return the cached
(current, next) wire pair when present, otherwise synthesize it. -/
def M.resolve (s : Signal) : M (String × Option String) := do
  let st ← M.get
  match assoc st.wires s with
  | some r => pure r
  | none => M.resolveFresh s

/-- Embedding of `_ValueCompilerState.resolve_curr`. -/
def M.resolveCurr (s : Signal) : M String := do
  let r ← M.resolve s
  pure r.1

/-- Embedding of `_ValueCompilerState.hierarchy`: run an action with the
hierarchy naming prefix set, resetting it afterwards. -/
def M.withHierarchy {α : Type} (sub : String) (body : M α) : M α := fun st =>
  match body { st with subName := some sub } with
  | .ok (a, st') => .ok (a, { st' with subName := none })
  | .error e => .error e

/-- Modelled from the spec: front-end constant normalization (the
`Const` constructor in `nmigen/hdl/ast.py`, outside `src/`): re-rendering
a constant at a target shape wraps its value to the target width and,
for a signed target, reinterprets the top bit as a sign bit. -/
def constNormalize (value : Int) (nbits : Nat) (signed : Bool) : Int :=
  let m := value.emod ((2 : Int) ^ nbits)
  if signed ∧ (2 : Int) ^ (nbits - 1) ≤ m then m - (2 : Int) ^ nbits else m

/-- Embedding of the integer branch of `_RHSValueCompiler.on_Const`: a
constant lowers to the literal width-quote-digits, where the digits are
the unpadded binary rendering of the stored value. -/
def onConstSpec (value : Int) (nbits : Nat) : SigSpec :=
  .constBits nbits (intBin value)

/-- Embedding of `_ValueCompiler.on_Slice` applied to an already-lowered
operand: a slice spanning the whole operand delegates to the operand, a
single-bit slice is an indexed select, any other slice a range select
(high index is the stop bound minus one). -/
def sliceSpec (inner : SigSpec) (a b innerW : Nat) : SigSpec :=
  if a = 0 ∧ b = innerW then inner
  else if a + 1 = b then .bitSel inner a
  else .rangeSel inner (b - 1) a

/-- Modelled from the spec: the isinstance check distinguishing a
front-end constant (`isinstance(value, ast.Const)`). -/
def Value.isConst : Value → Bool
  | .const _ _ _ => true
  | _ => false

/-- Stored value of a constant node (`value.value`; only read behind the
isinstance check). -/
def Value.constVal : Value → Int
  | .const value _ _ => value
  | _ => 0

/-- The `operator_map` table of `_RHSValueCompiler`. -/
def operatorMap : List ((Nat × String) × String) :=
  [((1, "~"), "$not"), ((1, "-"), "$neg"), ((1, "b"), "$reduce_bool"),
   ((2, "+"), "$add"), ((2, "-"), "$sub"), ((2, "*"), "$mul"),
   ((2, "/"), "$div"), ((2, "%"), "$mod"), ((2, "**"), "$pow"),
   ((2, "<<"), "$sshl"), ((2, ">>"), "$sshr"), ((2, "&"), "$and"),
   ((2, "^"), "$xor"), ((2, "|"), "$or"), ((2, "=="), "$eq"),
   ((2, "!="), "$ne"), ((2, "<"), "$lt"), ((2, "<="), "$le"),
   ((2, ">"), "$gt"), ((2, ">="), "$ge"), ((3, "m"), "$mux")]

/-- Format a (file, line) pair as in the module-level `src` helper. -/
def srcLoc (f : String) (l : Nat) : String := f ++ ":" ++ toString l

/-- Modelled from the spec: every front-end value carries a source
location, passed through verbatim (spec section 6); variants whose
locations never reach an emitted attribute in the embedded claims are
modelled with an empty location. -/
def Value.srcStr : Value → String
  | .signal s => srcOf s
  | .operator _ _ _ f l => srcLoc f l
  | _ => ""

/-- Shared tail of `_RHSValueCompiler.on_Operator_binary`: allocate the
result wire at the declared result width and emit one primitive cell
with ports A, B and Y and the given width and sign parameters. -/
def binCell (op : String) (lhsBits : Nat) (lhsSign : Bool) (rhsBits : Nat)
    (rhsSign : Bool) (lhsWire rhsWire : SigSpec) (sh : Nat × Bool)
    (sf : String) (sl : Nat) : M SigSpec := do
  let res ← M.wire sh.1 none none none ""
  match assoc operatorMap (2, op) with
  | none => M.throw .keyError
  | some kind => do
    let _ ← M.cell kind none
      [("A_SIGNED", boolInt lhsSign), ("A_WIDTH", (lhsBits : Int)),
       ("B_SIGNED", boolInt rhsSign), ("B_WIDTH", (rhsBits : Int)),
       ("Y_WIDTH", (sh.1 : Int))]
      [("\\A", lhsWire), ("\\B", rhsWire), ("\\Y", .wire res)] (srcLoc sf sl)
    pure (.wire res)

mutual

/-- Embedding of the `_RHSValueCompiler` dispatch: lower an expression to
a sigspec, emitting any wires and cells it needs.  The fuel argument
makes the recursion structural; each recursive call uses the predecessor
fuel. -/
def rhsCompile : Nat → Value → M SigSpec
  | 0, _ => M.throw .outOfFuel
  | fuel + 1, v =>
    match v with
    | .const value nbits _ => pure (onConstSpec value nbits)
    | .signal s => do
      let r ← M.resolve s
      pure (.wire r.1)
    | .slice v' a b => do
      let inner ← rhsCompile fuel v'
      pure (sliceSpec inner a b v'.width)
    | .cat ops => do
      let specs ← rhsList fuel ops
      pure (.group specs.reverse)
    | .repl v' n => do
      let specs ← rhsRepl fuel v' n
      pure (.group specs)
    | .operator op ops sh sf sl =>
      match ops with
      | [a] => onOperatorUnary fuel op a sh sf sl
      | [a, b] => onOperatorBinary fuel op a b sh sf sl
      | [sel, a, b] =>
        if op = "m" then onOperatorMux fuel sel a b sh sf sl
        else M.throw .assertionError
      | _ => M.throw .typeError
    | .part _ _ _ => M.throw .notImplementedError
    | .arrayProxy => M.throw .notImplementedError
    | .clockSignal _ => M.throw .notImplementedError
    | .resetSignal _ => M.throw .notImplementedError
termination_by structural fuel v => fuel

/-- Lowering of a list of operands in order (`on_Cat` comprehension). -/
def rhsList : Nat → List Value → M (List SigSpec)
  | 0, _ => M.throw .outOfFuel
  | _ + 1, [] => pure []
  | fuel + 1, v :: vs => do
    let s ← rhsCompile fuel v
    let ss ← rhsList fuel vs
    pure (s :: ss)
termination_by structural fuel vs => fuel

/-- Lowering of `count` copies of one operand (`on_Repl` generator). -/
def rhsRepl : Nat → Value → Nat → M (List SigSpec)
  | 0, _, _ => M.throw .outOfFuel
  | _ + 1, _, 0 => pure []
  | fuel + 1, v, n + 1 => do
    let s ← rhsCompile fuel v
    let ss ← rhsRepl fuel v n
    pure (s :: ss)
termination_by structural fuel v n => fuel

/-- Embedding of `_RHSValueCompiler.on_Operator_unary`: allocate the
result wire at the declared result width, lower the operand, and emit
one primitive cell with ports A and Y. -/
def onOperatorUnary : Nat → String → Value → Nat × Bool → String → Nat →
    M SigSpec
  | 0, _, _, _, _, _ => M.throw .outOfFuel
  | fuel + 1, op, arg, sh, sf, sl => do
    let res ← M.wire sh.1 none none none ""
    match assoc operatorMap (1, op) with
    | none => M.throw .keyError
    | some kind => do
      let a ← rhsCompile fuel arg
      let _ ← M.cell kind none
        [("A_SIGNED", boolInt arg.vsigned), ("A_WIDTH", (arg.width : Int)),
         ("Y_WIDTH", (sh.1 : Int))]
        [("\\A", a), ("\\Y", .wire res)] (srcLoc sf sl)
      pure (.wire res)
termination_by structural fuel op arg sh sf sl => fuel

/-- Embedding of `_RHSValueCompiler.match_shape`: a constant is
re-rendered directly at the target shape; otherwise, if the target width
does not exceed the current width, take a truncating slice (through
`on_Slice`); otherwise synthesize an extension cell whose input keeps
the operand's own signedness and whose output is the target width. -/
def matchShape : Nat → Value → Nat → Bool → M SigSpec
  | 0, _, _, _ => M.throw .outOfFuel
  | fuel + 1, v, newBits, newSign =>
    if v.isConst then
      pure (onConstSpec (constNormalize v.constVal newBits newSign) newBits)
    else do
      if newBits ≤ v.width then do
        let inner ← rhsCompile fuel v
        pure (sliceSpec inner 0 newBits v.width)
      else do
        let res ← M.wire newBits none none none ""
        let a ← rhsCompile fuel v
        let _ ← M.cell "$pos" none
          [("A_SIGNED", boolInt v.vsigned), ("A_WIDTH", (v.width : Int)),
           ("Y_WIDTH", (newBits : Int))]
          [("\\A", a), ("\\Y", .wire res)] v.srcStr
        pure (.wire res)
termination_by structural fuel v newBits newSign => fuel

/-- Embedding of `_RHSValueCompiler.on_Operator_binary`: when the two
operands share signedness they are lowered directly at their own widths;
otherwise both are coerced to signed arithmetic at the wider width via
width/sign matching; then one primitive cell is emitted with ports A, B
and Y and the matching width and sign parameters. -/
def onOperatorBinary : Nat → String → Value → Value → Nat × Bool → String →
    Nat → M SigSpec
  | 0, _, _, _, _, _, _ => M.throw .outOfFuel
  | fuel + 1, op, l, r, sh, sf, sl =>
    if l.vsigned = r.vsigned then do
      let lhsWire ← rhsCompile fuel l
      let rhsWire ← rhsCompile fuel r
      binCell op l.width l.vsigned r.width r.vsigned lhsWire rhsWire sh sf sl
    else do
      let lhsWire ← matchShape fuel l (max l.width r.width) true
      let rhsWire ← matchShape fuel r (max l.width r.width) true
      binCell op (max l.width r.width) true (max l.width r.width) true
        lhsWire rhsWire sh sf sl
termination_by structural fuel op l r sh sf sl => fuel

/-- Embedding of `_RHSValueCompiler.on_Operator_mux`: both data operands
and the result are widened to the maximum of the three declared widths
via width/sign matching (each data operand keeping its own signedness),
and one mux cell is emitted with ports A, B, S and Y. -/
def onOperatorMux : Nat → Value → Value → Value → Nat × Bool → String →
    Nat → M SigSpec
  | 0, _, _, _, _, _, _ => M.throw .outOfFuel
  | fuel + 1, sel, l, r, sh, sf, sl => do
    let lhsWire ← matchShape fuel l (max (max l.width r.width) sh.1) l.vsigned
    let rhsWire ← matchShape fuel r (max (max l.width r.width) sh.1) r.vsigned
    let res ← M.wire (max (max l.width r.width) sh.1) none none none ""
    let sw ← rhsCompile fuel sel
    let _ ← M.cell "$mux" none [("WIDTH", ((max (max l.width r.width) sh.1) : Int))]
      [("\\A", lhsWire), ("\\B", rhsWire), ("\\S", sw), ("\\Y", .wire res)]
      (srcLoc sf sl)
    pure (.wire res)
termination_by structural fuel sel l r sh sf sl => fuel

end

mutual

/-- Embedding of the `_LHSValueCompiler` dispatch: only a signal
reference is a legal assignment target, resolving to that signal's next
wire and failing with `ValueError` when no next wire exists; constants,
operators and replications raise `TypeError`; dynamic part-selects and
array multiplexers raise `NotImplementedError`; slices and
concatenations are traversed structurally by the shared
`_ValueCompiler.on_Slice` and `on_Cat` methods, recursing into this
compiler. -/
def lhsCompile : Nat → Value → M SigSpec
  | 0, _ => M.throw .outOfFuel
  | fuel + 1, v =>
    match v with
    | .const _ _ _ => M.throw .typeError
    | .signal s => do
      let r ← M.resolve s
      match r.2 with
      | none =>
        M.throw (.valueError ("Cannot return lhs for non-driven signal " ++ s.name))
      | some nxt => pure (.wire nxt)
    | .slice v' a b => do
      let inner ← lhsCompile fuel v'
      pure (sliceSpec inner a b v'.width)
    | .cat ops => do
      let specs ← lhsList fuel ops
      pure (.group specs.reverse)
    | .repl _ _ => M.throw .typeError
    | .operator _ _ _ _ _ => M.throw .typeError
    | .part _ _ _ => M.throw .notImplementedError
    | .arrayProxy => M.throw .notImplementedError
    | .clockSignal _ => M.throw .notImplementedError
    | .resetSignal _ => M.throw .notImplementedError
termination_by structural fuel v => fuel

/-- Write-side lowering of a list of concatenation operands in order. -/
def lhsList : Nat → List Value → M (List SigSpec)
  | 0, _ => M.throw .outOfFuel
  | _ + 1, [] => pure []
  | fuel + 1, v :: vs => do
    let s ← lhsCompile fuel v
    let ss ← lhsList fuel vs
    pure (s :: ss)
termination_by structural fuel vs => fuel

end

mutual

/-- Embedding of the statement pass `_convert_stmts` (inner function of
`convert_fragment`): an `Assign` lowers the right-hand side (directly
when both sides have the same width, otherwise through width/sign
matching at the left-hand width and the right-hand signedness), then the
left-hand side with the write-side compiler, and emits the case assign;
a `Switch` lowers its test once, opens the switch, and recurses into one
nested case per branch; any other statement kind raises `TypeError`. -/
def convertStmt : Nat → Stmt → M Unit
  | 0, _ => M.throw .outOfFuel
  | fuel + 1, stmt =>
    match stmt with
    | .assign lhs rhs => do
      let rhsSig ←
        if lhs.width = rhs.width then rhsCompile fuel rhs
        else matchShape fuel rhs lhs.width rhs.vsigned
      let lhsSig ← lhsCompile fuel lhs
      M.emitP (.assign lhsSig rhsSig)
    | .switch test cases => do
      let testSig ← rhsCompile fuel test
      M.emitP (.switchStart testSig)
      convertCases fuel cases
      M.emitP .switchEnd
    | .other => M.throw .typeError
termination_by structural fuel stmt => fuel

/-- Conversion of the branches of a switch, in order: each branch opens
its case (labelled, or unlabelled for the default) and recurses. -/
def convertCases : Nat → List (Option String × List Stmt) → M Unit
  | 0, _ => M.throw .outOfFuel
  | _ + 1, [] => pure ()
  | fuel + 1, (label, stmts) :: rest => do
    M.emitP (.caseStart label)
    convertStmtList fuel stmts
    convertCases fuel rest
termination_by structural fuel cs => fuel

/-- Conversion of a statement list, in order. -/
def convertStmtList : Nat → List Stmt → M Unit
  | 0, _ => M.throw .outOfFuel
  | _ + 1, [] => pure ()
  | fuel + 1, s :: ss => do
    convertStmt fuel s
    convertStmtList fuel ss
termination_by structural fuel ss => fuel

end

/-- Driver registration loop of `convert_fragment`: register every
driven signal before any expression lowering; a signal is synchronous
when its domain is present. -/
def registerDrivers : List (Option String × Signal) → M Unit
  | [] => pure ()
  | (domain, s) :: rest => do
    M.addDriven s domain.isSome
    registerDrivers rest

/-- Port loop of `convert_fragment`: record every port signal's
direction and allocation order, then lower it eagerly (outside any
hierarchy prefix) so it gets an unprefixed name. -/
def portsSection (fuel : Nat) : List (Signal × String) → M Unit
  | [] => pure ()
  | (s, kind) :: rest => do
    M.addPort s kind
    let _ ← rhsCompile fuel (.signal s)
    portsSection fuel rest

/-- Clock/reset loop of `convert_fragment`: for every synchronous driven
signal, look up its domain and lower the domain's clock and reset
eagerly; a domain with no reset signal lowers nothing for the reset (the
dispatcher maps a Python `None` through `on_unknown` to `None`). -/
def clocksSection (fuel : Nat) (doms : List (String × ClockDomain)) :
    List (String × Signal) → M Unit
  | [] => pure ()
  | (domain, _) :: rest => do
    match assoc doms domain with
    | none => M.throw .keyError
    | some cd => do
      let _ ← rhsCompile fuel (.signal cd.clk)
      match cd.rst with
      | some r => do
        let _ ← rhsCompile fuel (.signal r)
        pure ()
      | none => pure ()
      clocksSection fuel doms rest

/-- Default-case loop of `convert_fragment`: for every driven signal,
assign its next wire the reset constant when combinational, or its own
current wire when synchronous. -/
def defaultsSection (fuel : Nat) : List (Option String × Signal) → M Unit
  | [] => pure ()
  | (domain, s) :: rest => do
    let prev : Value :=
      match domain with
      | none => .const (constNormalize s.reset s.nbits false) s.nbits false
      | some _ => .signal s
    let lhsSig ← lhsCompile fuel (.signal s)
    let rhsSig ← rhsCompile fuel prev
    M.emitP (.assign lhsSig rhsSig)
    defaultsSection fuel rest

/-- Init-block loop of `convert_fragment`: for every synchronously
driven signal, record its current wire's initial value as the declared
reset constant. -/
def initSection (fuel : Nat) : List (String × Signal) → M Unit
  | [] => pure ()
  | (_, s) :: rest => do
    let r ← M.resolve s
    let c ← rhsCompile fuel
      (.const (constNormalize s.reset s.nbits false) s.nbits false)
    M.emitP (.update r.1 c)
    initSection fuel rest

/-- Updates of one edge-triggered block: for every signal driven in the
block's domain, copy the signal's next wire into its current wire.  A
signal with no next wire would render the Python `None` into the text;
that case is modelled by the literal wire name None. -/
def updatesFor : List Signal → M Unit
  | [] => pure ()
  | s :: rest => do
    let r ← M.resolve s
    M.emitP (.update r.1 (.wire (r.2.getD "None")))
    updatesFor rest

/-- Emission of the trigger blocks of one domain, each containing the
same per-signal updates. -/
def emitTriggers (signals : List Signal) :
    List (String × Option String) → M Unit
  | [] => pure ()
  | (kind, cond) :: rest => do
    M.emitP (.syncStart kind cond)
    updatesFor signals
    emitTriggers signals rest

/-- Edge-triggered block loop of `convert_fragment`: a combinational
(absent) domain gets one always block; a synchronous domain gets one
positive-clock-edge block, plus one positive-reset-edge block when its
reset is asynchronous (a missing reset signal there would fault in
Python when resolved, modelled as `attributeError`). -/
def syncSection (doms : List (String × ClockDomain)) :
    List (Option String × List Signal) → M Unit
  | [] => pure ()
  | (domain, signals) :: rest => do
    let triggers ←
      match domain with
      | none => pure [("always", (none : Option String))]
      | some d =>
        match assoc doms d with
        | none => M.throw .keyError
        | some cd => do
          let clk ← M.resolveCurr cd.clk
          if cd.asyncReset then
            match cd.rst with
            | none => M.throw .attributeError
            | some rsig => do
              let rw ← M.resolveCurr rsig
              pure [("posedge", some clk), ("posedge", some rw)]
          else
            pure [("posedge", (some clk : Option String))]
    emitTriggers signals triggers
    syncSection doms rest

/-- Process block of `convert_fragment`: allocate the process name from
the module namer, open the process, emit the top-level case (defaults
then the statement tree), the init block, and the edge-triggered
blocks. -/
def processSection (fuel : Nat) (f : Fragment) : M Unit := do
  let pname ← M.makeName none true
  M.emitP (.processStart pname)
  defaultsSection fuel f.iterDrivers
  convertStmtList fuel f.statements
  M.emitP (.syncStart "init" none)
  initSection fuel f.iterSync
  syncSection f.domains f.drivers

/-- Port-map collection of `convert_fragment`: for each port signal in
order, the already-resolved current wire name keyed to the signal. -/
def portMapSection : List (Signal × String) → M (List (String × Signal))
  | [] => pure []
  | (s, _) :: rest => do
    let c ← M.resolveCurr s
    let pm ← portMapSection rest
    pure ((c, s) :: pm)

/-- Port connections of one subfragment cell: each child port name is
connected to the parent-side lowering of the corresponding signal. -/
def portHookup (fuel : Nat) : List (String × Signal) →
    M (List (String × SigSpec))
  | [] => pure []
  | (p, s) :: rest => do
    let w ← rhsCompile fuel (.signal s)
    let ws ← portHookup fuel rest
    pure ((p, w) :: ws)

/-- One emitted module: its assigned name and the final per-module
compiler state (whose logs are the module's accumulated text). -/
structure ModuleRec where
  name : String
  final : ModState

/-- Builder-level state (`_Builder`): the module-level namer and the
modules flushed so far, most recently flushed first. -/
structure BuilderState where
  index : Nat
  names : List String
  modules : List ModuleRec

/-- Fresh builder state. -/
def BuilderState.init : BuilderState :=
  { index := 0, names := [], modules := [] }

mutual

/-- Embedding of `convert_fragment`: open a module scope (named, or
anonymous when the requested name is empty, marked top only when asked),
create fresh value-compiler state, register drivers first, lower ports
and clocks eagerly, convert subfragments to cells, emit the process, and
return the assigned module name with the ordered port-name-to-signal
map. -/
def convertFragment : Nat → Fragment → Option String → Bool →
    BuilderState → Except Err ((String × List (String × Signal)) × BuilderState)
  | 0, _, _, _, _ => .error .outOfFuel
  | fuel + 1, f, name?, top, b =>
    let requested :=
      match name? with
      | none => "anonymous"
      | some "" => "anonymous"
      | some nm => nm
    match makeNameCore b.index b.names (some requested) false with
    | .error e => .error e
    | .ok (modName, bidx, bnames) =>
      let b1 : BuilderState := { b with index := bidx, names := bnames }
      let attrs : List (String × AttrVal) :=
        ("generator", .str "nMigen") ::
          (if top then [("top", .int 1)] else [])
      let st0 : ModState :=
        { ModState.init with
            mlog := (attrs.map (fun p => MEvent.attr p.1 p.2)).reverse }
      match (do
          registerDrivers f.iterDrivers
          portsSection fuel f.ports
          clocksSection fuel f.domains f.iterSync : M Unit) st0 with
      | .error e => .error e
      | .ok (_, st1) =>
        match subfragSection fuel f.subfragments st1 b1 with
        | .error e => .error e
        | .ok (st2, b2) =>
          match processSection fuel f st2 with
          | .error e => .error e
          | .ok (_, st3) =>
            match portMapSection f.ports st3 with
            | .error e => .error e
            | .ok (pm, st4) =>
              let b3 : BuilderState :=
                { b2 with modules := ⟨modName, st4⟩ :: b2.modules }
              .ok ((modName, pm), b3)
termination_by structural fuel f n t b => fuel

/-- Subfragment loop of `convert_fragment`: recursively convert each
child, then instantiate it inside a hierarchy-prefix naming scope as a
cell whose kind and name are the child's module name and whose ports
connect the child's port map to parent-side wires. -/
def subfragSection : Nat → List (Fragment × Option String) → ModState →
    BuilderState → Except Err (ModState × BuilderState)
  | 0, _, _, _ => .error .outOfFuel
  | _ + 1, [], st, b => .ok (st, b)
  | fuel + 1, (sub, subName?) :: rest, st, b =>
    match convertFragment fuel sub subName? false b with
    | .error e => .error e
    | .ok ((subName, subPortMap), b') =>
      match (M.withHierarchy subName (do
          let ports ← portHookup fuel subPortMap
          let _ ← M.cell subName (some subName) [] ports ""
          pure ()) : M Unit) st with
      | .error e => .error e
      | .ok (_, st') => subfragSection fuel rest st' b'
termination_by structural fuel subs st b => fuel

end

/-- Lookup-preserving growth of the per-module state: wire declarations
keep their widths, registered names stay registered, and cached signal
resolutions keep their wire pairs. -/
def Evolve (st st' : ModState) : Prop :=
  (∀ n w, assoc st.decls n = some w → assoc st'.decls n = some w) ∧
  (∀ n, n ∈ st.names → n ∈ st'.names) ∧
  (∀ s r, assoc st.wires s = some r → assoc st'.wires s = some r)

/-- Well-formedness invariant of the per-module state: declared wire
names are distinct and registered with the namer; every cached signal
resolution points at declared wires of the signal's width; cached
current wires identify their signals; port kinds are valid. -/
structure WFS (st : ModState) : Prop where
  declNodup : (st.decls.map Prod.fst).Nodup
  declNames : ∀ n, n ∈ st.decls.map Prod.fst → n ∈ st.names
  wiresCurr : ∀ s c nx, assoc st.wires s = some (c, nx) →
    assoc st.decls c = some s.nbits
  wiresNext : ∀ s c nx n, assoc st.wires s = some (c, nx) → nx = some n →
    assoc st.decls n = some s.nbits
  currInj : ∀ s1 s2 c n1 n2, assoc st.wires s1 = some (c, n1) →
    assoc st.wires s2 = some (c, n2) → s1 = s2
  portsKinds : ∀ s pk, assoc st.ports s = some pk →
    pk.2 = "input" ∨ pk.2 = "output" ∨ pk.2 = "inout"

/-- Declared width of a sigspec, read off the wire declarations: a
literal carries its width, a wire its declared width, a single-bit
select has width one, a range select spans its bounds, and a group sums
its parts. -/
def specWidth (decls : List (String × Nat)) : SigSpec → Nat
  | .constBits n _ => n
  | .wire nm => (assoc decls nm).getD 0
  | .bitSel _ _ => 1
  | .rangeSel _ hi lo => hi - lo + 1
  | .group es => widthsL decls es
where
  /-- Total width of a list of group elements. -/
  widthsL (decls : List (String × Nat)) : List SigSpec → Nat
  | [] => 0
  | e :: es => specWidth decls e + widthsL decls es

/-- Stable width of a sigspec: it has the given declared width in the
state and in every later state the computation can evolve it to. -/
def SpecW (st : ModState) (spec : SigSpec) (w : Nat) : Prop :=
  ∀ st', Evolve st st' → specWidth st'.decls spec = w

/-- State equality outside the event logs: emission-only actions keep
all namer, declaration and cache fields. -/
def SameCore (st st' : ModState) : Prop :=
  st'.index = st.index ∧ st'.names = st.names ∧ st'.decls = st.decls ∧
  st'.wires = st.wires ∧ st'.driven = st.driven ∧ st'.ports = st.ports ∧
  st'.subName = st.subName ∧ st'.plog = st.plog

/-- Shape of the state change made by one wire declaration: a fresh name
is registered, the wire is declared at its width, and everything except
the module log is otherwise unchanged. -/
def WireShape (st : ModState) (nm : String) (w : Nat) (st' : ModState) : Prop :=
  st'.names = nm :: st.names ∧ st'.decls = (nm, w) :: st.decls ∧
  st'.wires = st.wires ∧ st'.driven = st.driven ∧ st'.ports = st.ports ∧
  st'.subName = st.subName ∧ st'.plog = st.plog

/-- Fold of successive allocations on one namer scope, returning the
allocated names in order (the repeated-allocation behavior of
`_Namer._make_name`). -/
def allocateAll (index : Nat) (names : List String) :
    List (Option String × Bool) → Except Err (List String × Nat × List String)
  | [] => .ok ([], index, names)
  | (n?, lcl) :: rest =>
    match makeNameCore index names n? lcl with
    | .error e => .error e
    | .ok (nm, idx', names') =>
      match allocateAll idx' names' rest with
      | .error e => .error e
      | .ok (nms, idx'', names'') => .ok (nm :: nms, idx'', names'')

/-- Demo signal: 4-bit unsigned. -/
def demoA4 : Signal :=
  { uid := 0, name := "a", nbits := 4, signed := false, reset := 0,
    attrs := [], srcFile := "demo.py", srcLine := 1 }

/-- Demo signal: 8-bit unsigned. -/
def demoB8 : Signal :=
  { uid := 1, name := "b", nbits := 8, signed := false, reset := 0,
    attrs := [], srcFile := "demo.py", srcLine := 2 }

/-- Demo signal: 4-bit signed. -/
def demoC4s : Signal :=
  { uid := 2, name := "c", nbits := 4, signed := true, reset := 0,
    attrs := [], srcFile := "demo.py", srcLine := 3 }

/-- Demo signal: 8-bit unsigned, reset value 5 (the spec's example
signal S). -/
def demoS : Signal :=
  { uid := 3, name := "s", nbits := 8, signed := false, reset := 5,
    attrs := [], srcFile := "demo.py", srcLine := 4 }

/-- Demo state with the 8-bit signal registered as driven. -/
def demoDrivenState : ModState :=
  { ModState.init with driven := [(demoS, true)] }

/-- Lowering of an unsigned 4-bit plus unsigned 8-bit addition (shared
signedness, differing widths), used to examine the emitted cell. -/
def c1runSameSign : Except Err (SigSpec × ModState) :=
  onOperatorBinary 10 "+" (.signal demoA4) (.signal demoB8) (9, false)
    "demo.py" 5 ModState.init

/-- Lowering of an unsigned 8-bit plus signed 4-bit addition (differing
signedness), and its result pair. -/
def c1diffRes : SigSpec × ModState :=
  (onOperatorBinary 10 "+" (.signal demoB8) (.signal demoC4s) (9, false)
    "demo.py" 6 ModState.init).toOption.getD (.wire "", ModState.init)

/-- Statement-pass run of an assign whose 8-bit unsigned destination
receives a 4-bit signed constant, and its result pair. -/
def c2run : Except Err (Unit × ModState) :=
  convertStmt 10 (.assign (.signal demoS) (.const (-1) 4 true))
    demoDrivenState

/-- Result pair of `c2run`. -/
def c2res : Unit × ModState := c2run.toOption.getD ((), ModState.init)

/-- The spec's reset-default example: a combinational driven 8-bit
signal with reset value 5, never assigned. -/
def c4frag : Fragment := .mk [(none, [demoS])] [] [] [] []

/-- Conversion of the reset-default example fragment. -/
def c4run : Except Err ((String × List (String × Signal)) × BuilderState) :=
  convertFragment 20 c4frag (some "top") true BuilderState.init

/-- Process log of the module the reset-default example produced. -/
def c4plog : List PEvent :=
  match c4run with
  | .ok (_, b) =>
    (b.modules.head?.map (fun (m : ModuleRec) => m.final.plog)).getD []
  | .error _ => []

/-- First assign event of a chronological process log. -/
def firstAssignRhs : List PEvent → Option SigSpec
  | [] => none
  | .assign _ r :: _ => some r
  | _ :: rest => firstAssignRhs rest

/-- Cached resolver pair of a signal, defaulting when absent (only used
under hypotheses that guarantee a cache hit). -/
def cachedPair (st : ModState) (s : Signal) : String × Option String :=
  (assoc st.wires s).getD ("None", none)

/-- Specification shape of claim C6: the update events of one trigger
block — for every signal of the domain, one update copying the signal's
next wire into its current wire. -/
def updateEventsFor (st : ModState) (signals : List Signal) : List PEvent :=
  signals.map (fun s =>
    PEvent.update (cachedPair st s).1
      (.wire ((cachedPair st s).2.getD "None")))

/-- Specification shape of claim C6: the trigger blocks of one domain —
exactly one always block for a combinational (absent) domain; one
positive-clock-edge block for a synchronous domain, plus one additional
positive-reset-edge block exactly when the domain's reset is
asynchronous. -/
def domainTriggers (doms : List (String × ClockDomain)) (st : ModState) :
    Option String → List (String × Option String)
  | none => [("always", none)]
  | some d =>
    match assoc doms d with
    | none => []
    | some cd =>
      if cd.asyncReset then
        match cd.rst with
        | none => []
        | some rsig =>
          [("posedge", some (cachedPair st cd.clk).1),
           ("posedge", some (cachedPair st rsig).1)]
      else [("posedge", some (cachedPair st cd.clk).1)]

/-- Specification shape of claim C6: the edge-triggered events of all
driven-signal groups, in order — per domain, its trigger blocks, each
containing the same per-signal updates. -/
def syncExpected (doms : List (String × ClockDomain)) (st : ModState) :
    List (Option String × List Signal) → List PEvent
  | [] => []
  | (domain, signals) :: rest =>
    (domainTriggers doms st domain).flatMap
        (fun t => PEvent.syncStart t.1 t.2 :: updateEventsFor st signals) ++
      syncExpected doms st rest

/-- Decidable readiness check for claim C6: every driven signal of every
group, every synchronous domain's clock, and (for asynchronous resets)
every reset signal is already in the resolver cache, and every named
domain is declared. -/
def syncReady (doms : List (String × ClockDomain)) (st : ModState)
    (groups : List (Option String × List Signal)) : Bool :=
  groups.all (fun p =>
    p.2.all (fun s => (assoc st.wires s).isSome) &&
    match p.1 with
    | none => true
    | some d =>
      match assoc doms d with
      | none => false
      | some cd =>
        (assoc st.wires cd.clk).isSome &&
        (!cd.asyncReset ||
          (match cd.rst with
           | some r => (assoc st.wires r).isSome
           | none => false)))

/-- Demo clock signal. -/
def demoClk : Signal :=
  { uid := 10, name := "clk", nbits := 1, signed := false, reset := 0,
    attrs := [], srcFile := "demo.py", srcLine := 7 }

/-- Demo reset signal. -/
def demoRst : Signal :=
  { uid := 11, name := "rst", nbits := 1, signed := false, reset := 0,
    attrs := [], srcFile := "demo.py", srcLine := 8 }

/-- Demo synchronous domain with an asynchronous reset. -/
def demoDom : ClockDomain :=
  { clk := demoClk, rst := some demoRst, asyncReset := true }

/-- Demo state whose resolver cache already holds the driven signal, the
clock and the reset. -/
def c6state : ModState :=
  { ModState.init with wires := [(demoS, ("\\s", some "\\s$next")), (demoClk, ("\\clk", none)), (demoRst, ("\\rst", none))] }

/-- Demo driven-signal groups: a combinational group and a synchronous
group. -/
def c6groups : List (Option String × List Signal) :=
  [(none, [demoS]), (some "sync", [demoS])]

/-- Demo domain table. -/
def c6doms : List (String × ClockDomain) := [("sync", demoDom)]

/-- Demo port signal: 4-bit output. -/
def demoP : Signal :=
  { uid := 12, name := "p", nbits := 4, signed := false, reset := 0,
    attrs := [], srcFile := "demo.py", srcLine := 9 }

/-- Fragment with the sole output port `P` of claim C8. -/
def c8frag : Fragment := .mk [] [] [] [(demoP, "o")] []

/-- Conversion of the sole-output-port fragment. -/
def c8run : Except Err ((String × List (String × Signal)) × BuilderState) :=
  convertFragment 20 c8frag (some "top") true BuilderState.init

/-- Port map returned by a fragment conversion. -/
def portMapOf
    (r : Except Err ((String × List (String × Signal)) × BuilderState)) :
    Option (List (String × Signal)) :=
  match r with
  | .ok ((_, pm), _) => some pm
  | .error _ => none

/-- Parameter list of the most recently emitted cell of a compiler
run. -/
def headCellParams : Except Err (SigSpec × ModState) →
    Option (List (String × Int))
  | .ok (_, st) =>
    match st.mlog.head? with
    | some (.cell _ _ params _) => some params
    | _ => none
  | .error _ => none

/-- Declared widths of the port connections of the most recently emitted
cell of a compiler run. -/
def headCellPortWidths : Except Err (SigSpec × ModState) → Option (List Nat)
  | .ok (_, st) =>
    match st.mlog.head? with
    | some (.cell _ _ _ ports) => some (ports.map (fun p => specWidth st.decls p.2))
    | _ => none
  | .error _ => none

/-- Sigspec produced by a compiler run. -/
def runSpec {α : Type} (r : Except Err (α × ModState)) : Option α :=
  match r with
  | .ok (a, _) => some a
  | .error _ => none

/-- Right-hand sigspec of the most recently emitted case assign of a
statement-pass run. -/
def headAssignRhs (r : Except Err (Unit × ModState)) : Option SigSpec :=
  match r with
  | .ok (_, st) =>
    match st.plog.head? with
    | some (.assign _ rhs) => some rhs
    | _ => none
  | .error _ => none

/-- Induction bundle: read-side lowering preserves the state invariant,
only grows the state, leaves the process log alone, and returns a
sigspec whose declared width is the expression's width. -/
def RhsOK (fuel : Nat) : Prop :=
  ∀ v st spec st', WFS st → v.wf → rhsCompile fuel v st = .ok (spec, st') →
    WFS st' ∧ Evolve st st' ∧ st'.plog = st.plog ∧ SpecW st' spec v.width

/-- Induction bundle for operand lists: widths line up pointwise. -/
def RhsListOK (fuel : Nat) : Prop :=
  ∀ vs st specs st', WFS st → Value.wf.wfList vs →
    rhsList fuel vs st = .ok (specs, st') →
    WFS st' ∧ Evolve st st' ∧ st'.plog = st.plog ∧
    ∀ st'', Evolve st' st'' →
      specs.map (specWidth st''.decls) = vs.map Value.width

/-- Induction bundle for replication: each copy has the operand width. -/
def RhsReplOK (fuel : Nat) : Prop :=
  ∀ v n st specs st', WFS st → v.wf → rhsRepl fuel v n st = .ok (specs, st') →
    WFS st' ∧ Evolve st st' ∧ st'.plog = st.plog ∧
    ∀ st'', Evolve st' st'' →
      specs.map (specWidth st''.decls) = List.replicate n v.width

/-- Induction bundle for width/sign matching: the result has exactly the
target width (a zero target width is only reachable on a zero-width
operand, where the truncating slice spans the whole operand). -/
def MatchOK (fuel : Nat) : Prop :=
  ∀ v nb ns st spec st', WFS st → v.wf → (0 < nb ∨ nb = v.width) →
    matchShape fuel v nb ns st = .ok (spec, st') →
    WFS st' ∧ Evolve st st' ∧ st'.plog = st.plog ∧ SpecW st' spec nb

/-- Induction bundle for unary operators: the result wire has the
declared result width. -/
def UnOK (fuel : Nat) : Prop :=
  ∀ op arg sh sf sl st spec st', WFS st → Value.wf arg →
    onOperatorUnary fuel op arg sh sf sl st = .ok (spec, st') →
    WFS st' ∧ Evolve st st' ∧ st'.plog = st.plog ∧ SpecW st' spec sh.1

/-- Induction bundle for binary operators. -/
def BinOK (fuel : Nat) : Prop :=
  ∀ op l r sh sf sl st spec st', WFS st → Value.wf l → Value.wf r →
    onOperatorBinary fuel op l r sh sf sl st = .ok (spec, st') →
    WFS st' ∧ Evolve st st' ∧ st'.plog = st.plog ∧ SpecW st' spec sh.1

/-- Induction bundle for mux: the result wire has the common widened
width. -/
def MuxOK (fuel : Nat) : Prop :=
  ∀ sel l r sh sf sl st spec st', WFS st → Value.wf sel → Value.wf l →
    Value.wf r →
    onOperatorMux fuel sel l r sh sf sl st = .ok (spec, st') →
    WFS st' ∧ Evolve st st' ∧ st'.plog = st.plog ∧
    SpecW st' spec (max (max l.width r.width) sh.1)

/-- Induction bundle for the write-side compiler: preservation only. -/
def LhsOK (fuel : Nat) : Prop :=
  ∀ v st spec st', WFS st → lhsCompile fuel v st = .ok (spec, st') →
    WFS st' ∧ Evolve st st' ∧ st'.plog = st.plog

/-- Induction bundle for write-side operand lists. -/
def LhsListOK (fuel : Nat) : Prop :=
  ∀ vs st specs st', WFS st → lhsList fuel vs st = .ok (specs, st') →
    WFS st' ∧ Evolve st st' ∧ st'.plog = st.plog

theorem assoc_cons {α β : Type} [DecidableEq α] (p : α × β) (l : List (α × β))
    (a : α) :
    assoc (p :: l) a = if p.1 = a then some p.2 else assoc l a := rfl

theorem assoc_some_mem {α β : Type} [DecidableEq α] {l : List (α × β)} {a : α}
    {b : β} (h : assoc l a = some b) : (a, b) ∈ l := by
  induction l with
  | nil => simp [assoc] at h
  | cons p ps ih =>
    rw [assoc_cons] at h
    by_cases hp : p.1 = a
    · rw [if_pos hp] at h
      cases h
      have hpp : p = (a, p.2) := by
        cases p
        cases hp
        rfl
      rw [hpp]
      exact List.mem_cons_self _ _
    · rw [if_neg hp] at h
      exact List.mem_cons_of_mem _ (ih h)

theorem assoc_mem_some {α β : Type} [DecidableEq α] {l : List (α × β)} {a : α}
    {b : β} (hnd : (l.map Prod.fst).Nodup) (h : (a, b) ∈ l) :
    assoc l a = some b := by
  induction l with
  | nil => simp at h
  | cons p ps ih =>
    rw [List.map_cons, List.nodup_cons] at hnd
    rcases List.mem_cons.1 h with h1 | h1
    · cases h1
      rw [assoc_cons, if_pos rfl]
    · rw [assoc_cons]
      have hne : p.1 ≠ a := by
        intro he
        exact hnd.1 (he ▸ (List.mem_map.2 ⟨(a, b), h1, rfl⟩))
      rw [if_neg hne]
      exact ih hnd.2 h1

theorem assoc_some_mem_fst {α β : Type} [DecidableEq α] {l : List (α × β)}
    {a : α} {b : β} (h : assoc l a = some b) : a ∈ l.map Prod.fst :=
  List.mem_map.2 ⟨(a, b), assoc_some_mem h, rfl⟩

theorem assoc_cons_of_ne {α β : Type} [DecidableEq α] {l : List (α × β)}
    {p : α × β} {a : α} (h : p.1 ≠ a) : assoc (p :: l) a = assoc l a := by
  rw [assoc_cons, if_neg h]

theorem Evolve.refl (st : ModState) : Evolve st st :=
  ⟨fun _ _ h => h, fun _ h => h, fun _ _ h => h⟩

theorem Evolve.trans {s1 s2 s3 : ModState} (h1 : Evolve s1 s2)
    (h2 : Evolve s2 s3) : Evolve s1 s3 :=
  ⟨fun n w h => h2.1 n w (h1.1 n w h),
   fun n h => h2.2.1 n (h1.2.1 n h),
   fun s r h => h2.2.2 s r (h1.2.2 s r h)⟩

theorem WFS.init_mlog (l : List MEvent) : WFS { ModState.init with mlog := l } := by
  refine ⟨?_, ?_, ?_, ?_, ?_, ?_⟩ <;> simp [ModState.init, assoc]

theorem bind_ok {α β : Type} (f : M α) (g : α → M β) (st st'' : ModState)
    (b : β) :
    (f >>= g) st = .ok (b, st'') ↔
      ∃ a st', f st = .ok (a, st') ∧ g a st' = .ok (b, st'') := by
  show (Monad.toBind.1 f g) st = _ ↔ _
  change (match f st with
    | .ok (a, st') => g a st'
    | .error e => .error e) = _ ↔ _
  constructor
  · intro h
    cases hf : f st with
    | ok p =>
      rw [hf] at h
      exact ⟨p.1, p.2, rfl, h⟩
    | error e =>
      rw [hf] at h
      cases h
  · rintro ⟨a, st', hf, hg⟩
    rw [hf]
    exact hg

theorem pure_ok {α : Type} (a b : α) (st st' : ModState) :
    (pure a : M α) st = .ok (b, st') ↔ b = a ∧ st' = st := by
  show Except.ok (a, st) = .ok (b, st') ↔ _
  constructor
  · intro h
    cases h
    exact ⟨rfl, rfl⟩
  · rintro ⟨rfl, rfl⟩
    rfl

theorem throw_ne_ok {α : Type} (e : Err) (st st' : ModState) (a : α) :
    M.throw e st ≠ .ok (a, st') := by
  intro h
  cases h

theorem countP_lt_of {α : Type} {l : List α} {p q : α → Bool} (a : α)
    (ha : a ∈ l) (hpa : p a = true) (hqa : q a = false)
    (himp : ∀ x ∈ l, q x = true → p x = true) :
    l.countP q < l.countP p := by
  induction l with
  | nil => simp at ha
  | cons b bs ih =>
    rw [List.countP_cons, List.countP_cons]
    rcases List.mem_cons.1 ha with hab | hab
    · subst hab
      rw [hpa, hqa, if_neg Bool.false_ne_true, if_pos rfl]
      have : bs.countP q ≤ bs.countP p :=
        List.countP_mono_left (fun x hx hq => himp x (List.mem_cons_of_mem _ hx) hq)
      omega
    · have hlt : bs.countP q < bs.countP p :=
        ih hab (fun x hx hq => himp x (List.mem_cons_of_mem _ hx) hq)
      by_cases hqb : q b = true
      · rw [if_pos hqb, if_pos (himp b (List.mem_cons_self _ _) hqb)]
        omega
      · rw [if_neg hqb]
        by_cases hpb : p b = true
        · rw [if_pos hpb]
          omega
        · rw [if_neg hpb]
          omega

theorem collide_append_len (name : String) (k : Nat) :
    name.length < (name ++ "$" ++ toString k).length := by
  rw [String.length_append, String.length_append]
  have : (1 : Nat) ≤ ("$" : String).length + (toString k).length := by
    have : ("$" : String).length = 1 := rfl
    omega
  omega

theorem collide_notMem (names : List String) :
    ∀ fuel name index nm idx,
      collide names fuel name index = some (nm, idx) → nm ∉ names := by
  intro fuel
  induction fuel with
  | zero => intro name index nm idx h; simp [collide] at h
  | succ f ih =>
    intro name index nm idx h
    rw [collide] at h
    by_cases hm : name ∈ names
    · rw [if_pos hm] at h
      exact ih _ _ _ _ h
    · rw [if_neg hm] at h
      cases h
      exact hm

theorem collide_isSome (names : List String) :
    ∀ fuel name index,
      names.countP (fun n => name.length ≤ n.length) < fuel →
      (collide names fuel name index).isSome := by
  intro fuel
  induction fuel with
  | zero => intro name index h; omega
  | succ f ih =>
    intro name index h
    rw [collide]
    by_cases hm : name ∈ names
    · rw [if_pos hm]
      apply ih
      have hlt : names.countP
            (fun n => (name ++ "$" ++ toString (index + 1)).length ≤ n.length) <
          names.countP (fun n => name.length ≤ n.length) := by
        apply countP_lt_of name hm
        · simp
        · simp only [decide_eq_false_iff_not]
          exact Nat.not_le.2 (collide_append_len name (index + 1))
        · intro x hx hq
          simp only [decide_eq_true_eq] at hq ⊢
          exact le_trans (le_of_lt (collide_append_len name (index + 1))) hq
      omega
    · rw [if_neg hm]
      rfl

theorem candidateName_isOk (index : Nat) (name? : Option String) (lcl : Bool)
    (hne : ∀ n, name? = some n → lcl = false → n ≠ "") :
    ∃ p, candidateName index name? lcl = .ok p := by
  rcases name? with _ | n
  · exact ⟨_, rfl⟩
  · by_cases hl : lcl = true
    · exact ⟨(n, index), by simp [candidateName, hl]⟩
    · have hn : n ≠ "" := hne n rfl (by simpa using hl)
      cases hd : n.data with
      | nil =>
        exact absurd (by
          cases n with
          | mk data =>
            cases hd
            rfl) hn
      | cons c cs =>
        by_cases hesc : c = '\\' ∨ c = '$'
        · exact ⟨(n, index), by simp [candidateName, hl, hd, hesc]⟩
        · exact ⟨("\\" ++ n, index), by simp [candidateName, hl, hd, hesc]⟩

theorem makeNameCore_ok {index : Nat} {names : List String}
    {name? : Option String} {lcl : Bool} {nm : String} {idx : Nat}
    {names' : List String}
    (h : makeNameCore index names name? lcl = .ok (nm, idx, names')) :
    nm ∉ names ∧ names' = nm :: names := by
  unfold makeNameCore at h
  cases hc : candidateName index name? lcl with
  | error e =>
    rw [hc] at h
    cases h
  | ok p =>
    obtain ⟨cand, cidx⟩ := p
    rw [hc] at h
    dsimp only at h
    cases hcol : collide names
        (names.countP (fun n => cand.length ≤ n.length) + 1) cand cidx with
    | none =>
      rw [hcol] at h
      cases h
    | some q =>
      obtain ⟨qn, qi⟩ := q
      rw [hcol] at h
      cases h
      exact ⟨collide_notMem names _ _ _ _ _ hcol, rfl⟩

theorem makeNameCore_isOk (index : Nat) (names : List String)
    (name? : Option String) (lcl : Bool)
    (hne : ∀ n, name? = some n → lcl = false → n ≠ "") :
    ∃ nm idx names', makeNameCore index names name? lcl = .ok (nm, idx, names') := by
  obtain ⟨p, hp⟩ := candidateName_isOk index name? lcl hne
  obtain ⟨cand, cidx⟩ := p
  unfold makeNameCore
  rw [hp]
  dsimp only
  have hs := collide_isSome names
    (names.countP (fun n => cand.length ≤ n.length) + 1) cand cidx
    (Nat.lt_succ_self _)
  cases hcol : collide names
      (names.countP (fun n => cand.length ≤ n.length) + 1) cand cidx with
  | none =>
    rw [hcol] at hs
    cases hs
  | some q =>
    obtain ⟨qn, qi⟩ := q
    exact ⟨qn, qi, qn :: names, rfl⟩

theorem SameCore.selfSame (st : ModState) : SameCore st st :=
  ⟨rfl, rfl, rfl, rfl, rfl, rfl, rfl, rfl⟩

theorem SameCore.wfs {st st' : ModState} (h : SameCore st st') (hw : WFS st) :
    WFS st' := by
  obtain ⟨h1, h2, h3, h4, h5, h6, h7, h8⟩ := h
  refine ⟨?_, ?_, ?_, ?_, ?_, ?_⟩
  · rw [h3]
    exact hw.declNodup
  · rw [h3, h2]
    exact hw.declNames
  · rw [h4, h3]
    exact hw.wiresCurr
  · rw [h4, h3]
    exact hw.wiresNext
  · rw [h4]
    exact hw.currInj
  · rw [h6]
    exact hw.portsKinds

theorem SameCore.evolve {st st' : ModState} (h : SameCore st st') :
    Evolve st st' := by
  obtain ⟨h1, h2, h3, h4, h5, h6, h7, h8⟩ := h
  exact ⟨fun n w hh => by rw [h3]; exact hh,
         fun n hh => by rw [h2]; exact hh,
         fun s r hh => by rw [h4]; exact hh⟩

theorem SameCore.chain {s1 s2 s3 : ModState} (h1 : SameCore s1 s2)
    (h2 : SameCore s2 s3) : SameCore s1 s3 := by
  obtain ⟨a1, a2, a3, a4, a5, a6, a7, a8⟩ := h1
  obtain ⟨b1, b2, b3, b4, b5, b6, b7, b8⟩ := h2
  exact ⟨b1.trans a1, b2.trans a2, b3.trans a3, b4.trans a4, b5.trans a5,
         b6.trans a6, b7.trans a7, b8.trans a8⟩

theorem emitM_ok {e : MEvent} {st st' : ModState} {a : Unit}
    (h : M.emitM e st = .ok (a, st')) :
    st' = { st with mlog := e :: st.mlog } := by
  cases h
  rfl

theorem emitP_ok {e : PEvent} {st st' : ModState} {a : Unit}
    (h : M.emitP e st = .ok (a, st')) :
    st' = { st with plog := e :: st.plog } := by
  cases h
  rfl

theorem srcAttr_samecore {src : String} {st st' : ModState} {a : Unit}
    (h : M.srcAttr src st = .ok (a, st')) : SameCore st st' := by
  unfold M.srcAttr at h
  by_cases hs : src = ""
  · rw [if_pos hs] at h
    cases h
    exact SameCore.selfSame _
  · rw [if_neg hs] at h
    rw [emitM_ok h]
    exact ⟨rfl, rfl, rfl, rfl, rfl, rfl, rfl, rfl⟩

theorem signalAttrs_samecore {attrs : List (String × AttrVal)} :
    ∀ {st st' : ModState} {a : Unit},
      M.signalAttrs attrs st = .ok (a, st') → SameCore st st' := by
  induction attrs with
  | nil =>
    intro st st' a h
    cases h
    exact SameCore.selfSame _
  | cons p rest ih =>
    intro st st' a h
    rw [M.signalAttrs] at h
    obtain ⟨b, st1, h1, h2⟩ := (bind_ok _ _ _ _ _).1 h
    have hc1 : st1 = { st with mlog := .attr p.1 p.2 :: st.mlog } := emitM_ok h1
    have hc2 := ih h2
    have hfirst : SameCore st st1 := by
      rw [hc1]
      exact ⟨rfl, rfl, rfl, rfl, rfl, rfl, rfl, rfl⟩
    exact hfirst.chain hc2

theorem makeName_okM {name? : Option String} {lcl : Bool} {st st' : ModState}
    {nm : String} (h : M.makeName name? lcl st = .ok (nm, st')) :
    nm ∉ st.names ∧
      ∃ i, st' = { st with index := i, names := nm :: st.names } := by
  unfold M.makeName at h
  cases hc : makeNameCore st.index st.names name? lcl with
  | error e =>
    rw [hc] at h
    cases h
  | ok p =>
    obtain ⟨pn, pi, pnames⟩ := p
    rw [hc] at h
    cases h
    obtain ⟨hfresh, hcons⟩ := makeNameCore_ok hc
    exact ⟨hfresh, pi, by rw [hcons]⟩

theorem makeName_isOk (name? : Option String) (lcl : Bool) (st : ModState)
    (hne : ∀ n, name? = some n → lcl = false → n ≠ "") :
    ∃ nm st', M.makeName name? lcl st = .ok (nm, st') := by
  obtain ⟨nm, idx, names', hok⟩ := makeNameCore_isOk st.index st.names name? lcl hne
  exact ⟨nm, _, by unfold M.makeName; rw [hok]⟩

theorem declWire_ok {w : Nat} {port : Option (Nat × String)} {name : String}
    {st st' : ModState} {a : Unit} (h : M.declWire w port name st = .ok (a, st')) :
    st' = { st with mlog := .wireDecl w port name :: st.mlog,
                    decls := (name, w) :: st.decls } := by
  cases h
  rfl

theorem throw_bind_ne_ok {α β : Type} (e : Err) (k : α → M β)
    (st st' : ModState) (b : β) : (M.throw e >>= k) st ≠ .ok (b, st') := by
  intro h
  cases h

theorem wire_ok {w : Nat} {pid : Option Nat} {pk : Option String}
    {n? : Option String} {src : String} {st st' : ModState} {nm : String}
    (h : M.wire w pid pk n? src st = .ok (nm, st')) :
    nm ∉ st.names ∧ WireShape st nm w st' := by
  unfold M.wire at h
  obtain ⟨u1, st1, hA, h⟩ := (bind_ok _ _ _ _ _).1 h
  obtain ⟨name, st2, hB, h⟩ := (bind_ok _ _ _ _ _).1 h
  obtain ⟨hA1, hA2, hA3, hA4, hA5, hA6, hA7, hA8⟩ := srcAttr_samecore hA
  obtain ⟨hfresh, i, hst2⟩ := makeName_okM hB
  have hshape : nm = name ∧ ∃ ml,
      st' = { st2 with mlog := ml, decls := (name, w) :: st2.decls } := by
    rcases pid with _ | p
    · obtain ⟨u2, st3, hC, h⟩ := (bind_ok _ _ _ _ _).1 h
      obtain ⟨hnm, hst⟩ := (pure_ok _ _ _ _).1 h
      subst hnm
      subst hst
      exact ⟨rfl, _, declWire_ok hC⟩
    · rcases pk with _ | k
      · exact absurd h (throw_bind_ne_ok _ _ _ _ _)
      · dsimp only at h
        by_cases hk : k = "input" ∨ k = "output" ∨ k = "inout"
        · rw [if_pos hk] at h
          obtain ⟨u2, st3, hC, h⟩ := (bind_ok _ _ _ _ _).1 h
          obtain ⟨hnm, hst⟩ := (pure_ok _ _ _ _).1 h
          subst hnm
          subst hst
          exact ⟨rfl, _, declWire_ok hC⟩
        · rw [if_neg hk] at h
          exact absurd h (throw_bind_ne_ok _ _ _ _ _)
  obtain ⟨hnm, ml, hst⟩ := hshape
  subst hnm
  constructor
  · rw [← hA2]
    exact hfresh
  · rw [hst, hst2]
    exact ⟨by rw [hA2], by rw [hA3], by rw [hA4], by rw [hA5], by rw [hA6],
           by rw [hA7], by rw [hA8]⟩

theorem srcAttr_isOk (src : String) (st : ModState) :
    ∃ st', M.srcAttr src st = .ok ((), st') := by
  unfold M.srcAttr
  by_cases hs : src = ""
  · rw [if_pos hs]
    exact ⟨st, rfl⟩
  · rw [if_neg hs]
    exact ⟨_, rfl⟩

theorem wire_isOk (w : Nat) (pid : Option Nat) (pk : Option String)
    (n? : Option String) (src : String) (st : ModState)
    (hne : ∀ n, n? = some n → n ≠ "")
    (hport : ∀ p, pid = some p → ∃ k, pk = some k ∧
      (k = "input" ∨ k = "output" ∨ k = "inout")) :
    ∃ nm st', M.wire w pid pk n? src st = .ok (nm, st') := by
  unfold M.wire
  obtain ⟨st1, h1⟩ := srcAttr_isOk src st
  obtain ⟨nm, st2, h2⟩ := makeName_isOk n? false st1 (fun n hn _ => hne n hn)
  rcases pid with _ | p
  · refine ⟨nm, ⟨{ st2 with mlog := MEvent.wireDecl w none nm :: st2.mlog, decls := (nm, w) :: st2.decls }, ?_⟩⟩
    rw [bind_ok]
    refine ⟨(), st1, h1, ?_⟩
    rw [bind_ok]
    refine ⟨nm, st2, h2, ?_⟩
    rw [bind_ok]
    exact ⟨(), _, rfl, rfl⟩
  · obtain ⟨k, hk, hkv⟩ := hport p rfl
    subst hk
    refine ⟨nm, ⟨{ st2 with mlog := MEvent.wireDecl w (some (p, k)) nm :: st2.mlog, decls := (nm, w) :: st2.decls }, ?_⟩⟩
    rw [bind_ok]
    refine ⟨(), st1, h1, ?_⟩
    rw [bind_ok]
    refine ⟨nm, st2, h2, ?_⟩
    dsimp only
    rw [if_pos hkv]
    rw [bind_ok]
    exact ⟨(), _, rfl, rfl⟩

theorem wireShape_wfs {st st' : ModState} {nm : String} {w : Nat}
    (hw : WFS st) (hfresh : nm ∉ st.names) (hs : WireShape st nm w st') :
    WFS st' ∧ Evolve st st' ∧ assoc st'.decls nm = some w ∧
      nm ∈ st'.names := by
  obtain ⟨h1, h2, h3, h4, h5, h6, h7⟩ := hs
  have hnd : nm ∉ st.decls.map Prod.fst := fun hmem => hfresh (hw.declNames nm hmem)
  have hpres : ∀ n v, assoc st.decls n = some v → assoc st'.decls n = some v := by
    intro n v hv
    rw [h2]
    have : nm ≠ n := by
      intro he
      exact hnd (he ▸ assoc_some_mem_fst hv)
    rw [assoc_cons ((nm, w)) st.decls n, if_neg this]
    exact hv
  refine ⟨⟨?_, ?_, ?_, ?_, ?_, ?_⟩, ⟨hpres, ?_, ?_⟩, ?_, ?_⟩
  · rw [h2]
    rw [List.map_cons, List.nodup_cons]
    exact ⟨hnd, hw.declNodup⟩
  · intro n hn
    rw [h2] at hn
    rw [h1]
    rw [List.map_cons] at hn
    rcases List.mem_cons.1 hn with hn | hn
    · rw [hn]
      exact List.mem_cons_self _ _
    · exact List.mem_cons_of_mem _ (hw.declNames n hn)
  · intro s c nx hsc
    rw [h3] at hsc
    exact hpres c s.nbits (hw.wiresCurr s c nx hsc)
  · intro s c nx n hsc hnx
    rw [h3] at hsc
    exact hpres n s.nbits (hw.wiresNext s c nx n hsc hnx)
  · intro s1 s2 c n1 n2 ha hb
    rw [h3] at ha hb
    exact hw.currInj s1 s2 c n1 n2 ha hb
  · intro s pk hsp
    rw [h5] at hsp
    exact hw.portsKinds s pk hsp
  · intro n hn
    rw [h1]
    exact List.mem_cons_of_mem _ hn
  · intro s r hr
    rw [h3]
    exact hr
  · rw [h2, assoc_cons]
    simp
  · rw [h1]
    exact List.mem_cons_self _ _

theorem cell_ok {kind : String} {n? : Option String}
    {params : List (String × Int)} {ports : List (String × SigSpec)}
    {src : String} {st st' : ModState} {nm : String}
    (h : M.cell kind n? params ports src st = .ok (nm, st')) :
    st'.mlog = .cell kind nm params ports :: st'.mlog.tail ∧
    ∃ i, st'.names = nm :: st.names ∧ st'.index = i ∧
      st'.decls = st.decls ∧ st'.wires = st.wires ∧ st'.driven = st.driven ∧
      st'.ports = st.ports ∧ st'.subName = st.subName ∧ st'.plog = st.plog := by
  unfold M.cell at h
  obtain ⟨u1, st1, hA, h⟩ := (bind_ok _ _ _ _ _).1 h
  obtain ⟨name, st2, hB, h⟩ := (bind_ok _ _ _ _ _).1 h
  obtain ⟨u2, st3, hC, h⟩ := (bind_ok _ _ _ _ _).1 h
  obtain ⟨hnm, hst⟩ := (pure_ok _ _ _ _).1 h
  subst hnm
  subst hst
  obtain ⟨hA1, hA2, hA3, hA4, hA5, hA6, hA7, hA8⟩ := srcAttr_samecore hA
  obtain ⟨hfresh, i, hst2⟩ := makeName_okM hB
  have hc := emitM_ok hC
  subst hc
  subst hst2
  refine ⟨rfl, i, ?_, rfl, ?_, ?_, ?_, ?_, ?_, ?_⟩ <;> simp [hA2, hA3, hA4, hA5, hA6, hA7, hA8]

theorem cell_wfs {kind : String} {n? : Option String}
    {params : List (String × Int)} {ports : List (String × SigSpec)}
    {src : String} {st st' : ModState} {nm : String} (hw : WFS st)
    (h : M.cell kind n? params ports src st = .ok (nm, st')) :
    WFS st' ∧ Evolve st st' := by
  obtain ⟨hhead, i, hnames, hidx, hdecls, hwires, hdriven, hports, hsub, hplog⟩ :=
    cell_ok h
  constructor
  · refine ⟨?_, ?_, ?_, ?_, ?_, ?_⟩
    · rw [hdecls]
      exact hw.declNodup
    · intro n hn
      rw [hdecls] at hn
      rw [hnames]
      exact List.mem_cons_of_mem _ (hw.declNames n hn)
    · intro s c nx hsc
      rw [hwires] at hsc
      rw [hdecls]
      exact hw.wiresCurr s c nx hsc
    · intro s c nx n hsc hnx
      rw [hwires] at hsc
      rw [hdecls]
      exact hw.wiresNext s c nx n hsc hnx
    · intro s1 s2 c n1 n2 ha hb
      rw [hwires] at ha hb
      exact hw.currInj s1 s2 c n1 n2 ha hb
    · intro s pk hsp
      rw [hports] at hsp
      exact hw.portsKinds s pk hsp
  · exact ⟨fun n w hv => by rw [hdecls]; exact hv,
           fun n hn => by rw [hnames]; exact List.mem_cons_of_mem _ hn,
           fun s r hr => by rw [hwires]; exact hr⟩

theorem cell_isOk (kind : String) (n? : Option String)
    (params : List (String × Int)) (ports : List (String × SigSpec))
    (src : String) (st : ModState) :
    ∃ nm st', M.cell kind n? params ports src st = .ok (nm, st') := by
  unfold M.cell
  obtain ⟨st1, h1⟩ := srcAttr_isOk src st
  obtain ⟨nm, st2, h2⟩ := makeName_isOk n? true st1 (by
    intro n hn hf
    cases hf)
  refine ⟨nm, ⟨{ st2 with mlog := MEvent.cell kind nm params ports :: st2.mlog }, ?_⟩⟩
  rw [bind_ok]
  refine ⟨(), st1, h1, ?_⟩
  rw [bind_ok]
  refine ⟨nm, st2, h2, ?_⟩
  rw [bind_ok]
  exact ⟨(), _, rfl, rfl⟩

theorem signalAttrs_isOk (attrs : List (String × AttrVal)) :
    ∀ st : ModState, ∃ st', M.signalAttrs attrs st = .ok ((), st') := by
  induction attrs with
  | nil =>
    intro st
    exact ⟨st, rfl⟩
  | cons p rest ih =>
    intro st
    obtain ⟨st', hrest⟩ := ih { st with mlog := .attr p.1 p.2 :: st.mlog }
    refine ⟨st', ?_⟩
    rw [M.signalAttrs, bind_ok]
    exact ⟨(), _, rfl, hrest⟩

theorem wfs_cache_insert {st : ModState} {s : Signal} {c : String}
    {nx : Option String} (hw : WFS st) (hnc : assoc st.wires s = none)
    (hcd : assoc st.decls c = some s.nbits)
    (hnd : ∀ n, nx = some n → assoc st.decls n = some s.nbits)
    (hcnotin : ∀ s2 c2 n2, assoc st.wires s2 = some (c2, n2) → c ≠ c2) :
    WFS { st with wires := (s, (c, nx)) :: st.wires } ∧
    Evolve st { st with wires := (s, (c, nx)) :: st.wires } := by
  constructor
  · refine ⟨hw.declNodup, hw.declNames, ?_, ?_, ?_, hw.portsKinds⟩
    · intro s2 c2 nx2 hsc
      rw [show ({ st with wires := (s, (c, nx)) :: st.wires } : ModState).wires
            = (s, (c, nx)) :: st.wires from rfl, assoc_cons] at hsc
      by_cases hss : s = s2
      · rw [if_pos hss] at hsc
        cases hsc
        exact hss ▸ hcd
      · rw [if_neg hss] at hsc
        exact hw.wiresCurr s2 c2 nx2 hsc
    · intro s2 c2 nx2 n hsc hnx
      rw [show ({ st with wires := (s, (c, nx)) :: st.wires } : ModState).wires
            = (s, (c, nx)) :: st.wires from rfl, assoc_cons] at hsc
      by_cases hss : s = s2
      · rw [if_pos hss] at hsc
        cases hsc
        subst hnx
        exact hss ▸ hnd _ rfl
      · rw [if_neg hss] at hsc
        exact hw.wiresNext s2 c2 nx2 n hsc hnx
    · intro s1 s2 c0 n1 n2 ha hb
      rw [show ({ st with wires := (s, (c, nx)) :: st.wires } : ModState).wires
            = (s, (c, nx)) :: st.wires from rfl, assoc_cons] at ha hb
      by_cases hs1 : s = s1
      · rw [if_pos hs1] at ha
        by_cases hs2 : s = s2
        · rw [← hs1, ← hs2]
        · rw [if_neg hs2] at hb
          cases ha
          exact absurd rfl (hcnotin s2 c n2 hb)
      · rw [if_neg hs1] at ha
        by_cases hs2 : s = s2
        · rw [if_pos hs2] at hb
          cases hb
          exact absurd rfl (hcnotin s1 c n1 ha)
        · rw [if_neg hs2] at hb
          exact hw.currInj s1 s2 c0 n1 n2 ha hb
  · refine ⟨fun n w hv => hv, fun n hn => hn, ?_⟩
    intro s2 r2 hr
    rw [show ({ st with wires := (s, (c, nx)) :: st.wires } : ModState).wires
          = (s, (c, nx)) :: st.wires from rfl, assoc_cons]
    by_cases hss : s = s2
    · rw [← hss] at hr
      rw [hnc] at hr
      cases hr
    · rw [if_neg hss]
      exact hr

theorem map_ok {α β : Type} (f : α → β) (m : M α) (st st' : ModState) (b : β) :
    (f <$> m) st = .ok (b, st') ↔
      ∃ a, m st = .ok (a, st') ∧ b = f a := by
  show (Monad.toBind.1 m fun a => pure (f a)) st = _ ↔ _
  change (match m st with
    | .ok (a, st1) => (pure (f a) : M β) st1
    | .error e => .error e) = _ ↔ _
  constructor
  · intro h
    cases hm : m st with
    | ok p =>
      obtain ⟨a0, stp⟩ := p
      rw [hm] at h
      obtain ⟨hb, hst⟩ := (pure_ok _ _ _ _).1 h
      subst hst
      exact ⟨a0, rfl, hb⟩
    | error e =>
      rw [hm] at h
      cases h
  · rintro ⟨a, hm, rfl⟩
    rw [hm]
    exact rfl

theorem get_bind_ok {α : Type} (k : ModState → M α) (st st' : ModState)
    (a : α) : (M.get >>= k) st = .ok (a, st') ↔ k st st = .ok (a, st') :=
  Iff.rfl

theorem modify_ok {f : ModState → ModState} {st st' : ModState} {a : Unit}
    (h : M.modify f st = .ok (a, st')) : st' = f st := by
  cases h
  rfl

theorem resolveFresh_ok {s : Signal} {st st' : ModState} {c : String}
    {nx : Option String} (hw : WFS st) (hnc : assoc st.wires s = none)
    (h : M.resolveFresh s st = .ok ((c, nx), st')) :
    WFS st' ∧ Evolve st st' ∧
    st'.wires = (s, (c, nx)) :: st.wires ∧
    assoc st'.decls c = some s.nbits ∧
    (∀ n, nx = some n → assoc st'.decls n = some s.nbits) ∧
    (nx.isSome ↔ (assoc st.driven s).isSome) ∧
    c ∉ st.names ∧
    st'.driven = st.driven ∧ st'.ports = st.ports ∧
    st'.subName = st.subName ∧ st'.plog = st.plog := by
  unfold M.resolveFresh at h
  rw [get_bind_ok] at h
  obtain ⟨u1, st1, hA, h⟩ := (bind_ok _ _ _ _ _).1 h
  obtain ⟨wc, st2, hB, h⟩ := (bind_ok _ _ _ _ _).1 h
  obtain ⟨hA1, hA2, hA3, hA4, hA5, hA6, hA7, hA8⟩ := signalAttrs_samecore hA
  have hwfs1 : WFS st1 := (signalAttrs_samecore hA).wfs hw
  obtain ⟨hfresh2, hshape2⟩ := wire_ok hB
  obtain ⟨hwfs2, hev2, hdecl2, hmem2⟩ := wireShape_wfs hwfs1 hfresh2 hshape2
  obtain ⟨hs1, hs2, hs3, hs4, hs5, hs6, hs7⟩ := hshape2
  have hrest : ∃ nx0 st3, nx = nx0 ∧ c = wc ∧
      st' = { st3 with wires := (s, (wc, nx0)) :: st3.wires } ∧
      WFS st3 ∧ Evolve st2 st3 ∧
      (∀ n, nx0 = some n → assoc st3.decls n = some s.nbits) ∧
      (nx0.isSome ↔ (assoc st.driven s).isSome) ∧
      st3.wires = st2.wires ∧ st3.driven = st2.driven ∧
      st3.ports = st2.ports ∧ st3.subName = st2.subName ∧
      st3.plog = st2.plog := by
    by_cases hdrv : (assoc st.driven s).isSome
    · rw [if_pos hdrv] at h
      obtain ⟨nxv, st3, hC, h⟩ := (bind_ok _ _ _ _ _).1 h
      obtain ⟨u4, st4, hD, h⟩ := (bind_ok _ _ _ _ _).1 h
      obtain ⟨hres, hst'⟩ := (pure_ok _ _ _ _).1 h
      obtain ⟨wn, hCw, hnxv⟩ := (map_ok _ _ _ _ _).1 hC
      obtain ⟨hfresh3, hshape3⟩ := wire_ok hCw
      obtain ⟨hwfs3, hev3, hdecl3, hmem3⟩ := wireShape_wfs hwfs2 hfresh3 hshape3
      obtain ⟨ht1, ht2, ht3, ht4, ht5, ht6, ht7⟩ := hshape3
      rw [Prod.mk.injEq] at hres
      have hD' : st4 = { st3 with wires := (s, (wc, nxv)) :: st3.wires } := by
        cases hD
        rfl
      refine ⟨nxv, st3, hres.2, hres.1, by rw [hst', hD'], hwfs3, hev3, ?_,
        by rw [hnxv]; simp [hdrv], ht3, ht4, ht5, ht6, ht7⟩
      intro n hn
      rw [hnxv] at hn
      cases hn
      exact hdecl3
    · rw [if_neg hdrv] at h
      obtain ⟨nxv, st3, hC, h⟩ := (bind_ok _ _ _ _ _).1 h
      obtain ⟨u4, st4, hD, h⟩ := (bind_ok _ _ _ _ _).1 h
      obtain ⟨hres, hst'⟩ := (pure_ok _ _ _ _).1 h
      obtain ⟨hnxv, hst3⟩ := (pure_ok _ _ _ _).1 hC
      subst hnxv
      rw [hst3] at hD
      rw [Prod.mk.injEq] at hres
      have hD' : st4 = { st2 with wires := (s, (wc, none)) :: st2.wires } := by
        cases hD
        rfl
      refine ⟨none, st2, hres.2, hres.1, by rw [hst', hD'], hwfs2,
        Evolve.refl _, ?_, by simp [hdrv], rfl, rfl, rfl, rfl, rfl⟩
      intro n hn
      cases hn
  obtain ⟨nx0, st3, rfl, rfl, hst', hwfs3, hev3, hnext3, hiff, ht3, ht4, ht5,
    ht6, ht7⟩ := hrest
  have hdecl3 : assoc st3.decls c = some s.nbits := hev3.1 _ _ hdecl2
  have hwires3 : st3.wires = st.wires := by
    rw [ht3, hs3, hA4]
  have hnc3 : assoc st3.wires s = none := by
    rw [hwires3]
    exact hnc
  have hcnotin : ∀ s2 c2 n2, assoc st3.wires s2 = some (c2, n2) → c ≠ c2 := by
    intro s2 c2 n2 hr he
    rw [hwires3] at hr
    have hc2d : assoc st.decls c2 = some s2.nbits := hw.wiresCurr s2 c2 n2 hr
    have hc2n : c2 ∈ st.names :=
      hw.declNames c2 (assoc_some_mem_fst hc2d)
    rw [← hA2] at hc2n
    exact hfresh2 (he ▸ hc2n)
  obtain ⟨hwfs4, hev4⟩ := wfs_cache_insert hwfs3 hnc3 hdecl3 hnext3 hcnotin
  rw [← hst'] at hwfs4 hev4
  have hevAll : Evolve st st' :=
    (((signalAttrs_samecore hA).evolve).trans (hev2.trans hev3)).trans hev4
  refine ⟨hwfs4, hevAll, ?_, ?_, ?_, hiff, ?_, ?_, ?_, ?_, ?_⟩
  · rw [hst']
    show (s, (c, nx)) :: st3.wires = (s, (c, nx)) :: st.wires
    rw [hwires3]
  · rw [hst']
    exact hdecl3
  · intro n hn
    rw [hst']
    exact hnext3 n hn
  · rw [← hA2]
    exact hfresh2
  · rw [hst']
    show st3.driven = st.driven
    rw [ht4, hs4, hA5]
  · rw [hst']
    show st3.ports = st.ports
    rw [ht5, hs5, hA6]
  · rw [hst']
    show st3.subName = st.subName
    rw [ht6, hs6, hA7]
  · rw [hst']
    show st3.plog = st.plog
    rw [ht7, hs7, hA8]

theorem resolve_cached {s : Signal} {st : ModState}
    {r : String × Option String} (h : assoc st.wires s = some r) :
    M.resolve s st = .ok (r, st) := by
  show (match assoc st.wires s with
        | some r0 => (pure r0 : M (String × Option String))
        | none => M.resolveFresh s) st = .ok (r, st)
  rw [h]
  rfl

theorem resolve_ok {s : Signal} {st st' : ModState}
    {r : String × Option String} (hw : WFS st)
    (h : M.resolve s st = .ok (r, st')) :
    WFS st' ∧ Evolve st st' ∧ assoc st'.wires s = some r ∧
    assoc st'.decls r.1 = some s.nbits ∧
    (∀ n, r.2 = some n → assoc st'.decls n = some s.nbits) ∧
    st'.driven = st.driven ∧ st'.ports = st.ports ∧
    st'.subName = st.subName ∧ st'.plog = st.plog := by
  obtain ⟨c, nx⟩ := r
  have h2 : (match assoc st.wires s with
      | some r0 => (pure r0 : M (String × Option String))
      | none => M.resolveFresh s) st = .ok ((c, nx), st') := h
  cases hc : assoc st.wires s with
  | some r0 =>
    rw [hc] at h2
    obtain ⟨hr, hst⟩ := (pure_ok _ _ _ _).1 h2
    subst hr
    subst hst
    refine ⟨hw, Evolve.refl _, hc, ?_, ?_, rfl, rfl, rfl, rfl⟩
    · exact hw.wiresCurr s c nx hc
    · intro n hn
      exact hw.wiresNext s c nx n hc hn
  | none =>
    rw [hc] at h2
    obtain ⟨hwfs, hev, hwires, hdecl, hnext, hiff, hfresh, hdr, hpt, hsub,
      hplog⟩ := resolveFresh_ok hw hc h2
    refine ⟨hwfs, hev, ?_, hdecl, hnext, hdr, hpt, hsub, hplog⟩
    rw [hwires, assoc_cons, if_pos rfl]

theorem string_append_ne_empty (a b : String) (hb : b ≠ "") : a ++ b ≠ "" := by
  intro he
  apply hb
  have hlen : (a ++ b).length = 0 := by rw [he]; rfl
  rw [String.length_append] at hlen
  have : b.length = 0 := by omega
  cases b with
  | mk data =>
    cases data with
    | nil => rfl
    | cons x xs => simp [String.length, List.length] at this

theorem resolveFresh_isOk {s : Signal} {st : ModState} (hw : WFS st)
    (hname : s.name ≠ "") :
    ∃ r st', M.resolveFresh s st = .ok (r, st') := by
  obtain ⟨st1, hA⟩ := signalAttrs_isOk s.attrs st
  have hnameW : (match st.subName with
      | some sub => sub ++ "_" ++ s.name
      | none => s.name) ≠ "" := by
    cases st.subName with
    | none => exact hname
    | some sub => exact string_append_ne_empty _ _ hname
  have hport : ∀ p, (Option.map (fun p => p.1) (assoc st.ports s)) = some p →
      ∃ k, (Option.map (fun p => p.2) (assoc st.ports s)) = some k ∧
        (k = "input" ∨ k = "output" ∨ k = "inout") := by
    intro p hp
    cases hpi : assoc st.ports s with
    | none =>
      rw [hpi] at hp
      cases hp
    | some q =>
      exact ⟨q.2, rfl, hw.portsKinds s q hpi⟩
  obtain ⟨wc, st2, hB⟩ := wire_isOk s.nbits
    (Option.map (fun p => p.1) (assoc st.ports s))
    (Option.map (fun p => p.2) (assoc st.ports s))
    (some (match st.subName with
           | some sub => sub ++ "_" ++ s.name
           | none => s.name)) (srcOf s) st1
    (fun n hn => by cases hn; exact hnameW) hport
  by_cases hdrv : (assoc st.driven s).isSome
  · obtain ⟨wn, st3, hC⟩ := wire_isOk s.nbits none none
      (some (wc ++ "$next")) (srcOf s) st2
      (fun n hn => by
        cases hn
        exact string_append_ne_empty _ _ (by decide))
      (fun p hp => by cases hp)
    refine ⟨(wc, some wn), { st3 with wires := (s, (wc, some wn)) :: st3.wires }, ?_⟩
    unfold M.resolveFresh
    rw [get_bind_ok]
    dsimp only
    rw [bind_ok]
    refine ⟨(), st1, hA, ?_⟩
    rw [bind_ok]
    refine ⟨wc, st2, hB, ?_⟩
    rw [if_pos hdrv]
    rw [bind_ok]
    refine ⟨some wn, st3, ?_, ?_⟩
    · rw [map_ok]
      exact ⟨wn, hC, rfl⟩
    · rw [bind_ok]
      exact ⟨(), _, rfl, rfl⟩
  · refine ⟨(wc, none), { st2 with wires := (s, (wc, none)) :: st2.wires }, ?_⟩
    unfold M.resolveFresh
    rw [get_bind_ok]
    dsimp only
    rw [bind_ok]
    refine ⟨(), st1, hA, ?_⟩
    rw [bind_ok]
    refine ⟨wc, st2, hB, ?_⟩
    rw [if_neg hdrv]
    rw [bind_ok]
    refine ⟨none, st2, rfl, ?_⟩
    rw [bind_ok]
    exact ⟨(), _, rfl, rfl⟩

theorem specW_constBits (st : ModState) (n : Nat) (b : String) :
    SpecW st (.constBits n b) n := fun _ _ => rfl

theorem specW_wire {st : ModState} {nm : String} {w : Nat}
    (h : assoc st.decls nm = some w) : SpecW st (.wire nm) w := by
  intro st'' hev
  show (assoc st''.decls nm).getD 0 = w
  rw [hev.1 nm w h]
  rfl

theorem specW_mono {st st' : ModState} {spec : SigSpec} {w : Nat}
    (h : SpecW st spec w) (hev : Evolve st st') : SpecW st' spec w :=
  fun st'' hev' => h st'' (hev.trans hev')

theorem sliceSpec_specW {st : ModState} {inner : SigSpec} {w a b : Nat}
    (hin : SpecW st inner w) (hab : a < b ∨ (a = 0 ∧ b = w)) :
    SpecW st (sliceSpec inner a b w) (b - a) := by
  unfold sliceSpec
  by_cases hfull : a = 0 ∧ b = w
  · rw [if_pos hfull]
    obtain ⟨rfl, rfl⟩ := hfull
    rw [Nat.sub_zero]
    exact hin
  · rw [if_neg hfull]
    have hlt : a < b := by
      rcases hab with hlt | heq
      · exact hlt
      · exact absurd heq hfull
    by_cases hbit : a + 1 = b
    · rw [if_pos hbit]
      intro st'' hev
      show 1 = b - a
      omega
    · rw [if_neg hbit]
      intro st'' hev
      show b - 1 - a + 1 = b - a
      omega

theorem specWidth_group (d : List (String × Nat)) (es : List SigSpec) :
    specWidth d (.group es) = (es.map (specWidth d)).sum := by
  show specWidth.widthsL d es = _
  induction es with
  | nil => rfl
  | cons e rest ih =>
    rw [List.map_cons, List.sum_cons, ← ih]
    rfl

theorem matchOK_step {f : Nat} (ihR : RhsOK f) : MatchOK (f + 1) := by
  intro v nb ns st spec st' hw hwf hnb h
  rw [matchShape] at h
  by_cases hc : v.isConst = true
  · rw [if_pos hc] at h
    obtain ⟨hs, hst⟩ := (pure_ok _ _ _ _).1 h
    subst hs
    subst hst
    exact ⟨hw, Evolve.refl _, rfl, specW_constBits _ _ _⟩
  · rw [if_neg hc] at h
    have hab : 0 < nb ∨ (0 = 0 ∧ nb = v.width) := by
      rcases hnb with hpos | heq
      · exact Or.inl hpos
      · exact Or.inr ⟨rfl, heq⟩
    by_cases hle : nb ≤ v.width
    · rw [if_pos hle] at h
      obtain ⟨inner, st1, h1, h⟩ := (bind_ok _ _ _ _ _).1 h
      obtain ⟨hs, hst⟩ := (pure_ok _ _ _ _).1 h
      subst hs
      subst hst
      obtain ⟨hwfs1, hev1, hplog1, hw1⟩ := ihR v st inner st' hw hwf h1
      refine ⟨hwfs1, hev1, hplog1, ?_⟩
      have h2 := sliceSpec_specW hw1 hab
      rw [Nat.sub_zero] at h2
      exact h2
    · rw [if_neg hle] at h
      obtain ⟨res, st1, h1, h⟩ := (bind_ok _ _ _ _ _).1 h
      obtain ⟨a, st2, h2, h⟩ := (bind_ok _ _ _ _ _).1 h
      obtain ⟨u, st3, h3, h⟩ := (bind_ok _ _ _ _ _).1 h
      obtain ⟨hs, hst⟩ := (pure_ok _ _ _ _).1 h
      subst hs
      subst hst
      obtain ⟨hfresh1, hshape1⟩ := wire_ok h1
      obtain ⟨hwfs1, hev1, hdecl1, hmem1⟩ := wireShape_wfs hw hfresh1 hshape1
      obtain ⟨hwfs2, hev2, hplog2, hw2⟩ := ihR v st1 a st2 hwfs1 hwf h2
      obtain ⟨hwfs3, hev3⟩ := cell_wfs hwfs2 h3
      obtain ⟨hhead3, i3, hn3, hi3, hd3, hws3, hdr3, hp3, hsn3, hpl3⟩ :=
        cell_ok h3
      refine ⟨hwfs3, (hev1.trans hev2).trans hev3, ?_, ?_⟩
      · rw [hpl3, hplog2, hshape1.2.2.2.2.2.2]
      · exact specW_mono (specW_wire hdecl1) (hev2.trans hev3)

theorem unOK_step {f : Nat} (ihR : RhsOK f) : UnOK (f + 1) := by
  intro op arg sh sf sl st spec st' hw hwf h
  rw [onOperatorUnary] at h
  obtain ⟨res, st1, h1, h⟩ := (bind_ok _ _ _ _ _).1 h
  cases hmap : assoc operatorMap (1, op) with
  | none =>
    rw [hmap] at h
    cases h
  | some kind =>
    rw [hmap] at h
    dsimp only at h
    obtain ⟨a, st2, h2, h⟩ := (bind_ok _ _ _ _ _).1 h
    obtain ⟨u, st3, h3, h⟩ := (bind_ok _ _ _ _ _).1 h
    obtain ⟨hs, hst⟩ := (pure_ok _ _ _ _).1 h
    subst hs
    subst hst
    obtain ⟨hfresh1, hshape1⟩ := wire_ok h1
    obtain ⟨hwfs1, hev1, hdecl1, hmem1⟩ := wireShape_wfs hw hfresh1 hshape1
    obtain ⟨hwfs2, hev2, hplog2, hw2⟩ := ihR arg st1 a st2 hwfs1 hwf h2
    obtain ⟨hwfs3, hev3⟩ := cell_wfs hwfs2 h3
    obtain ⟨hhead3, i3, hn3, hi3, hd3, hws3, hdr3, hp3, hsn3, hpl3⟩ :=
      cell_ok h3
    refine ⟨hwfs3, (hev1.trans hev2).trans hev3, ?_, ?_⟩
    · rw [hpl3, hplog2, hshape1.2.2.2.2.2.2]
    · exact specW_mono (specW_wire hdecl1) (hev2.trans hev3)

theorem max_pos_or_left (a b : Nat) : 0 < max a b ∨ max a b = a := by
  rcases Nat.eq_zero_or_pos (max a b) with h0 | hpos
  · right
    rw [Nat.max_eq_zero_iff] at h0
    rw [h0.1, h0.2]
    rfl
  · left
    exact hpos

theorem max_pos_or_right (a b : Nat) : 0 < max a b ∨ max a b = b := by
  rcases Nat.eq_zero_or_pos (max a b) with h0 | hpos
  · right
    rw [Nat.max_eq_zero_iff] at h0
    rw [h0.1, h0.2]
    rfl
  · left
    exact hpos

theorem binCell_ok {op : String} {lhsBits : Nat} {lhsSign : Bool}
    {rhsBits : Nat} {rhsSign : Bool} {lhsWire rhsWire : SigSpec}
    {sh : Nat × Bool} {sf : String} {sl : Nat} {st st' : ModState}
    {spec : SigSpec} (hw : WFS st)
    (h : binCell op lhsBits lhsSign rhsBits rhsSign lhsWire rhsWire sh sf sl
      st = .ok (spec, st')) :
    WFS st' ∧ Evolve st st' ∧ st'.plog = st.plog ∧ SpecW st' spec sh.1 := by
  unfold binCell at h
  obtain ⟨res, st1, h1, h⟩ := (bind_ok _ _ _ _ _).1 h
  cases hmap : assoc operatorMap (2, op) with
  | none =>
    rw [hmap] at h
    cases h
  | some kind =>
    rw [hmap] at h
    dsimp only at h
    obtain ⟨u, st2, h2, h⟩ := (bind_ok _ _ _ _ _).1 h
    obtain ⟨hs, hst⟩ := (pure_ok _ _ _ _).1 h
    subst hs
    subst hst
    obtain ⟨hfresh1, hshape1⟩ := wire_ok h1
    obtain ⟨hwfs1, hev1, hdecl1, hmem1⟩ := wireShape_wfs hw hfresh1 hshape1
    obtain ⟨hwfs2, hev2⟩ := cell_wfs hwfs1 h2
    obtain ⟨hhead2, i2, hn2, hi2, hd2, hws2, hdr2, hp2, hsn2, hpl2⟩ :=
      cell_ok h2
    refine ⟨hwfs2, hev1.trans hev2, ?_, ?_⟩
    · rw [hpl2, hshape1.2.2.2.2.2.2]
    · exact specW_mono (specW_wire hdecl1) hev2

theorem binOK_step {f : Nat} (ihR : RhsOK f) (ihM : MatchOK f) :
    BinOK (f + 1) := by
  intro op l r sh sf sl st spec st' hw hwl hwr h
  rw [onOperatorBinary] at h
  by_cases hsg : l.vsigned = r.vsigned
  · rw [if_pos hsg] at h
    obtain ⟨lw0, stA, hL, h⟩ := (bind_ok _ _ _ _ _).1 h
    obtain ⟨rw0, stB, hR, h⟩ := (bind_ok _ _ _ _ _).1 h
    obtain ⟨hwfsA, hevA, hplA, _⟩ := ihR l st lw0 stA hw hwl hL
    obtain ⟨hwfsB, hevB, hplB, _⟩ := ihR r stA rw0 stB hwfsA hwr hR
    obtain ⟨hwfs2, hev2, hpl2, hsw⟩ := binCell_ok hwfsB h
    refine ⟨hwfs2, (hevA.trans hevB).trans hev2, ?_, hsw⟩
    rw [hpl2, hplB, hplA]
  · rw [if_neg hsg] at h
    obtain ⟨lw0, stA, hL, h⟩ := (bind_ok _ _ _ _ _).1 h
    obtain ⟨rw0, stB, hR, h⟩ := (bind_ok _ _ _ _ _).1 h
    obtain ⟨hwfsA, hevA, hplA, _⟩ :=
      ihM l (max l.width r.width) true st lw0 stA hw hwl
        (max_pos_or_left _ _) hL
    obtain ⟨hwfsB, hevB, hplB, _⟩ :=
      ihM r (max l.width r.width) true stA rw0 stB hwfsA hwr
        (max_pos_or_right _ _) hR
    obtain ⟨hwfs2, hev2, hpl2, hsw⟩ := binCell_ok hwfsB h
    refine ⟨hwfs2, (hevA.trans hevB).trans hev2, ?_, hsw⟩
    rw [hpl2, hplB, hplA]

theorem muxOK_step {f : Nat} (ihR : RhsOK f) (ihM : MatchOK f) :
    MuxOK (f + 1) := by
  intro sel l r sh sf sl st spec st' hw hwsel hwl hwr h
  rw [onOperatorMux] at h
  obtain ⟨lw0, st1, hL, h⟩ := (bind_ok _ _ _ _ _).1 h
  obtain ⟨rw0, st2, hR, h⟩ := (bind_ok _ _ _ _ _).1 h
  obtain ⟨res, st3, h3, h⟩ := (bind_ok _ _ _ _ _).1 h
  obtain ⟨sw, st4, h4, h⟩ := (bind_ok _ _ _ _ _).1 h
  obtain ⟨u, st5, h5, h⟩ := (bind_ok _ _ _ _ _).1 h
  obtain ⟨hs, hst⟩ := (pure_ok _ _ _ _).1 h
  subst hs
  subst hst
  have hposl : 0 < max (max l.width r.width) sh.1 ∨
      max (max l.width r.width) sh.1 = l.width := by
    rcases Nat.eq_zero_or_pos (max (max l.width r.width) sh.1) with h0 | hpos
    · right
      rw [h0]
      rw [Nat.max_eq_zero_iff] at h0
      have h01 := h0.1
      rw [Nat.max_eq_zero_iff] at h01
      exact h01.1.symm
    · left
      exact hpos
  have hposr : 0 < max (max l.width r.width) sh.1 ∨
      max (max l.width r.width) sh.1 = r.width := by
    rcases Nat.eq_zero_or_pos (max (max l.width r.width) sh.1) with h0 | hpos
    · right
      rw [h0]
      rw [Nat.max_eq_zero_iff] at h0
      have h01 := h0.1
      rw [Nat.max_eq_zero_iff] at h01
      exact h01.2.symm
    · left
      exact hpos
  obtain ⟨hwfs1, hev1, hpl1, _⟩ :=
    ihM l (max (max l.width r.width) sh.1) l.vsigned st lw0 st1 hw hwl hposl hL
  obtain ⟨hwfs2, hev2, hpl2, _⟩ :=
    ihM r (max (max l.width r.width) sh.1) r.vsigned st1 rw0 st2 hwfs1 hwr
      hposr hR
  obtain ⟨hfresh3, hshape3⟩ := wire_ok h3
  obtain ⟨hwfs3, hev3, hdecl3, hmem3⟩ := wireShape_wfs hwfs2 hfresh3 hshape3
  obtain ⟨hwfs4, hev4, hpl4, _⟩ := ihR sel st3 sw st4 hwfs3 hwsel h4
  obtain ⟨hwfs5, hev5⟩ := cell_wfs hwfs4 h5
  obtain ⟨hhead5, i5, hn5, hi5, hd5, hws5, hdr5, hp5, hsn5, hpl5⟩ := cell_ok h5
  refine ⟨hwfs5, (((hev1.trans hev2).trans hev3).trans hev4).trans hev5, ?_, ?_⟩
  · rw [hpl5, hpl4, hshape3.2.2.2.2.2.2, hpl2, hpl1]
  · exact specW_mono (specW_wire hdecl3) (hev4.trans hev5)

theorem listOK_step {f : Nat} (ihR : RhsOK f) (ihL : RhsListOK f) :
    RhsListOK (f + 1) := by
  intro vs st specs st' hw hwf h
  cases vs with
  | nil =>
    rw [rhsList] at h
    obtain ⟨hs, hst⟩ := (pure_ok _ _ _ _).1 h
    subst hs
    subst hst
    exact ⟨hw, Evolve.refl _, rfl, fun st'' _ => rfl⟩
  | cons v rest =>
    rw [rhsList] at h
    obtain ⟨s0, st1, h1, h⟩ := (bind_ok _ _ _ _ _).1 h
    obtain ⟨ss, st2, h2, h⟩ := (bind_ok _ _ _ _ _).1 h
    obtain ⟨hs, hst⟩ := (pure_ok _ _ _ _).1 h
    subst hs
    subst hst
    obtain ⟨hwfv, hwfrest⟩ := hwf
    obtain ⟨hwfs1, hev1, hpl1, hsw1⟩ := ihR v st s0 st1 hw hwfv h1
    obtain ⟨hwfs2, hev2, hpl2, hsw2⟩ := ihL rest st1 ss st' hwfs1 hwfrest h2
    refine ⟨hwfs2, hev1.trans hev2, by rw [hpl2, hpl1], ?_⟩
    intro st'' hev''
    rw [List.map_cons, List.map_cons]
    rw [hsw1 st'' (hev2.trans hev''), hsw2 st'' hev'']

theorem replOK_step {f : Nat} (ihR : RhsOK f) (ihRep : RhsReplOK f) :
    RhsReplOK (f + 1) := by
  intro v n st specs st' hw hwf h
  cases n with
  | zero =>
    rw [rhsRepl] at h
    obtain ⟨hs, hst⟩ := (pure_ok _ _ _ _).1 h
    subst hs
    subst hst
    exact ⟨hw, Evolve.refl _, rfl, fun st'' _ => rfl⟩
  | succ m =>
    rw [rhsRepl] at h
    obtain ⟨s0, st1, h1, h⟩ := (bind_ok _ _ _ _ _).1 h
    obtain ⟨ss, st2, h2, h⟩ := (bind_ok _ _ _ _ _).1 h
    obtain ⟨hs, hst⟩ := (pure_ok _ _ _ _).1 h
    subst hs
    subst hst
    obtain ⟨hwfs1, hev1, hpl1, hsw1⟩ := ihR v st s0 st1 hw hwf h1
    obtain ⟨hwfs2, hev2, hpl2, hsw2⟩ := ihRep v m st1 ss st' hwfs1 hwf h2
    refine ⟨hwfs2, hev1.trans hev2, by rw [hpl2, hpl1], ?_⟩
    intro st'' hev''
    rw [List.map_cons, List.replicate_succ]
    rw [hsw1 st'' (hev2.trans hev''), hsw2 st'' hev'']

theorem widths_eq_sum (ops : List Value) :
    Value.shape.widths ops = (ops.map Value.width).sum := by
  induction ops with
  | nil => rfl
  | cons v rest ih =>
    rw [List.map_cons, List.sum_cons, ← ih]
    rfl

theorem rhsOK_step {f : Nat} (ihR : RhsOK f) (ihL : RhsListOK f)
    (ihRep : RhsReplOK f) (ihU : UnOK f) (ihB : BinOK f) (ihX : MuxOK f) :
    RhsOK (f + 1) := by
  intro v st spec st' hw hwf h
  cases v with
  | const value nbits sg =>
    rw [rhsCompile] at h
    obtain ⟨hs, hst⟩ := (pure_ok _ _ _ _).1 h
    subst hs
    subst hst
    exact ⟨hw, Evolve.refl _, rfl, specW_constBits _ _ _⟩
  | signal s =>
    rw [rhsCompile] at h
    obtain ⟨r, st1, h1, h⟩ := (bind_ok _ _ _ _ _).1 h
    obtain ⟨hs, hst⟩ := (pure_ok _ _ _ _).1 h
    subst hs
    subst hst
    obtain ⟨hwfs1, hev1, hcache, hdecl, hnext, hdr, hpt, hsub, hpl⟩ :=
      resolve_ok hw h1
    exact ⟨hwfs1, hev1, hpl, specW_wire hdecl⟩
  | slice v' a b =>
    rw [rhsCompile] at h
    obtain ⟨inner, st1, h1, h⟩ := (bind_ok _ _ _ _ _).1 h
    obtain ⟨hs, hst⟩ := (pure_ok _ _ _ _).1 h
    subst hs
    subst hst
    obtain ⟨hab, hble, hwf'⟩ := hwf
    obtain ⟨hwfs1, hev1, hpl1, hsw1⟩ := ihR v' st inner st' hw hwf' h1
    exact ⟨hwfs1, hev1, hpl1, sliceSpec_specW hsw1 hab⟩
  | cat ops =>
    rw [rhsCompile] at h
    obtain ⟨specs, st1, h1, h⟩ := (bind_ok _ _ _ _ _).1 h
    obtain ⟨hs, hst⟩ := (pure_ok _ _ _ _).1 h
    subst hs
    subst hst
    obtain ⟨hwfs1, hev1, hpl1, hsw1⟩ := ihL ops st specs st' hw hwf h1
    refine ⟨hwfs1, hev1, hpl1, ?_⟩
    intro st'' hev''
    rw [specWidth_group, List.map_reverse, List.sum_reverse]
    rw [hsw1 st'' hev'']
    show (ops.map Value.width).sum = Value.shape.widths ops
    rw [widths_eq_sum]
  | repl v' n =>
    rw [rhsCompile] at h
    obtain ⟨specs, st1, h1, h⟩ := (bind_ok _ _ _ _ _).1 h
    obtain ⟨hs, hst⟩ := (pure_ok _ _ _ _).1 h
    subst hs
    subst hst
    obtain ⟨hwfs1, hev1, hpl1, hsw1⟩ := ihRep v' n st specs st' hw hwf h1
    refine ⟨hwfs1, hev1, hpl1, ?_⟩
    intro st'' hev''
    rw [specWidth_group, hsw1 st'' hev'', List.sum_replicate, smul_eq_mul]
    show n * v'.width = v'.width * n
    rw [Nat.mul_comm]
  | operator op ops sh sf sl =>
    obtain ⟨hbounds, hwfl⟩ := hwf
    rcases ops with _ | ⟨a, _ | ⟨b, _ | ⟨c, _ | ⟨d, rest⟩⟩⟩⟩
    · cases h
    · rw [rhsCompile] at h
      obtain ⟨hwfa, -⟩ := hwfl
      exact ihU op a sh sf sl st spec st' hw hwfa h
    · rw [rhsCompile] at h
      obtain ⟨hwfa, hwfb, -⟩ := hwfl
      exact ihB op a b sh sf sl st spec st' hw hwfa hwfb h
    · rw [rhsCompile] at h
      by_cases hop : op = "m"
      · rw [if_pos hop] at h
        obtain ⟨hwfa, hwfb, hwfc, -⟩ := hwfl
        obtain ⟨hwfs1, hev1, hpl1, hsw1⟩ :=
          ihX a b c sh sf sl st spec st' hw hwfa hwfb hwfc h
        refine ⟨hwfs1, hev1, hpl1, ?_⟩
        have hmax : max (max b.width c.width) sh.1 = sh.1 :=
          Nat.max_eq_right (Nat.max_le.2 ⟨hbounds.1, hbounds.2⟩)
        rw [hmax] at hsw1
        exact hsw1
      · rw [if_neg hop] at h
        cases h
    · cases h
  | part v' off w =>
    cases h
  | arrayProxy =>
    cases h
  | clockSignal d =>
    cases h
  | resetSignal d =>
    cases h

theorem rhsMaster : ∀ fuel, RhsOK fuel ∧ RhsListOK fuel ∧ RhsReplOK fuel ∧
    MatchOK fuel ∧ UnOK fuel ∧ BinOK fuel ∧ MuxOK fuel := by
  intro fuel
  induction fuel with
  | zero =>
    refine ⟨?_, ?_, ?_, ?_, ?_, ?_, ?_⟩
    · intro v st spec st' _ _ h
      cases h
    · intro vs st specs st' _ _ h
      cases h
    · intro v n st specs st' _ _ h
      cases h
    · intro v nb ns st spec st' _ _ _ h
      cases h
    · intro op arg sh sf sl st spec st' _ _ h
      cases h
    · intro op l r sh sf sl st spec st' _ _ _ h
      cases h
    · intro sel l r sh sf sl st spec st' _ _ _ _ h
      cases h
  | succ f ih =>
    obtain ⟨ihR, ihL, ihRep, ihM, ihU, ihB, ihX⟩ := ih
    exact ⟨rhsOK_step ihR ihL ihRep ihU ihB ihX, listOK_step ihR ihL,
           replOK_step ihR ihRep, matchOK_step ihR, unOK_step ihR,
           binOK_step ihR ihM, muxOK_step ihR ihM⟩

theorem lhsMaster : ∀ fuel, LhsOK fuel ∧ LhsListOK fuel := by
  intro fuel
  induction fuel with
  | zero =>
    constructor
    · intro v st spec st' _ h
      cases h
    · intro vs st specs st' _ h
      cases h
  | succ f ih =>
    obtain ⟨ihV, ihL⟩ := ih
    constructor
    · intro v st spec st' hw h
      cases v with
      | const value nbits sg => cases h
      | signal s =>
        rw [lhsCompile] at h
        obtain ⟨r, st1, h1, h⟩ := (bind_ok _ _ _ _ _).1 h
        obtain ⟨c, nx⟩ := r
        obtain ⟨hwfs1, hev1, hcache, hdecl, hnext, hdr, hpt, hsub, hpl⟩ :=
          resolve_ok hw h1
        cases nx with
        | none => cases h
        | some nxt =>
          obtain ⟨hs, hst⟩ := (pure_ok _ _ _ _).1 h
          subst hs
          subst hst
          exact ⟨hwfs1, hev1, hpl⟩
      | slice v' a b =>
        rw [lhsCompile] at h
        obtain ⟨inner, st1, h1, h⟩ := (bind_ok _ _ _ _ _).1 h
        obtain ⟨hs, hst⟩ := (pure_ok _ _ _ _).1 h
        subst hs
        subst hst
        exact ihV v' st inner st' hw h1
      | cat ops =>
        rw [lhsCompile] at h
        obtain ⟨specs, st1, h1, h⟩ := (bind_ok _ _ _ _ _).1 h
        obtain ⟨hs, hst⟩ := (pure_ok _ _ _ _).1 h
        subst hs
        subst hst
        exact ihL ops st specs st' hw h1
      | repl v' n => cases h
      | operator op ops sh sf sl => cases h
      | part v' off w => cases h
      | arrayProxy => cases h
      | clockSignal d => cases h
      | resetSignal d => cases h
    · intro vs st specs st' hw h
      cases vs with
      | nil =>
        rw [lhsList] at h
        obtain ⟨hs, hst⟩ := (pure_ok _ _ _ _).1 h
        subst hs
        subst hst
        exact ⟨hw, Evolve.refl _, rfl⟩
      | cons v rest =>
        rw [lhsList] at h
        obtain ⟨s0, st1, h1, h⟩ := (bind_ok _ _ _ _ _).1 h
        obtain ⟨ss, st2, h2, h⟩ := (bind_ok _ _ _ _ _).1 h
        obtain ⟨hs, hst⟩ := (pure_ok _ _ _ _).1 h
        subst hs
        subst hst
        obtain ⟨hwfs1, hev1, hpl1⟩ := ihV v st s0 st1 hw h1
        obtain ⟨hwfs2, hev2, hpl2⟩ := ihL rest st1 ss st' hwfs1 h2
        exact ⟨hwfs2, hev1.trans hev2, by rw [hpl2, hpl1]⟩

theorem mBindPure {α : Type} (m : M α) (st : ModState) :
    (m >>= pure) st = m st := by
  show (match m st with
    | .ok (a, st') => (pure a : M α) st'
    | .error e => .error e) = m st
  cases m st with
  | ok p => rfl
  | error e => rfl

/-- Claim C9: lowering the slice of `x` that starts at bit 0 and spans
the full width of `x` is the same computation as lowering `x` directly:
it returns the identical sigspec and the identical final state, so no
additional wire or cell is emitted (one fuel step is consumed by the
slice dispatch itself). -/
theorem c9_slice_identity (fuel : Nat) (x : Value) (st : ModState) :
    rhsCompile (fuel + 1) (.slice x 0 x.width) st = rhsCompile fuel x st := by
  have hs : (fun inner => (pure (sliceSpec inner 0 x.width x.width) : M SigSpec))
      = fun inner => pure inner := by
    funext inner
    unfold sliceSpec
    rw [if_pos ⟨rfl, rfl⟩]
  show (rhsCompile fuel x >>= fun inner =>
    pure (sliceSpec inner 0 x.width x.width)) st = rhsCompile fuel x st
  rw [hs]
  exact mBindPure _ _

/-- Claim C7: on one namer scope, a sequence of successful allocations
returns pairwise distinct names, none of which equals a name previously
registered in the scope; moreover the scope afterwards holds exactly the
returned names on top of the original ones (no release or reuse). -/
theorem c7_namer_unique :
    ∀ (reqs : List (Option String × Bool)) (index : Nat) (names : List String)
      (returned : List String) (idx' : Nat) (names' : List String),
      allocateAll index names reqs = .ok (returned, idx', names') →
      returned.Nodup ∧ (∀ nm ∈ returned, nm ∉ names) ∧
        names' = returned.reverse ++ names := by
  intro reqs
  induction reqs with
  | nil =>
    intro index names returned idx' names' h
    rw [allocateAll] at h
    injection h with h1
    injection h1 with h2 h3
    injection h3 with h4 h5
    subst h2; subst h4; subst h5
    refine ⟨List.nodup_nil, ?_, rfl⟩
    intro nm hnm
    cases hnm
  | cons req rest ih =>
    intro index names returned idx' names' h
    obtain ⟨n?, lcl⟩ := req
    rw [allocateAll] at h
    cases hm : makeNameCore index names n? lcl with
    | error e => rw [hm] at h; cases h
    | ok trip =>
      obtain ⟨nm, i1, ns1⟩ := trip
      rw [hm] at h
      dsimp only at h
      obtain ⟨hnotmem, hns1⟩ := makeNameCore_ok hm
      cases ha : allocateAll i1 ns1 rest with
      | error e => rw [ha] at h; cases h
      | ok trip2 =>
        obtain ⟨nms, i2, ns2⟩ := trip2
        rw [ha] at h
        dsimp only at h
        injection h with h1
        injection h1 with h2 h3
        injection h3 with h4 h5
        subst h2; subst h4; subst h5
        obtain ⟨hnodup, hfresh, hns2⟩ := ih i1 ns1 nms i2 ns2 ha
        subst hns1
        refine ⟨List.nodup_cons.mpr ⟨?_, hnodup⟩, ?_, ?_⟩
        · intro hmem
          exact hfresh nm hmem (List.mem_cons_self nm names)
        · intro m hm'
          rcases List.mem_cons.mp hm' with hEq | hmem
          · subst hEq; exact hnotmem
          · intro hbad
            exact hfresh m hmem (List.mem_cons_of_mem nm hbad)
        · rw [hns2, List.reverse_cons, List.append_assoc]
          rfl

theorem c7_namer_unique_witness :
    allocateAll 0 [] [(some "a", false), (some "a", false), (none, true)]
        = .ok (["\\a", "\\a$1", "$2"], 2, ["$2", "\\a$1", "\\a"]) ∧
      (["\\a", "\\a$1", "$2"] : List String).Nodup ∧
      (∀ nm ∈ (["\\a", "\\a$1", "$2"] : List String), nm ∉ ([] : List String)) ∧
      ["$2", "\\a$1", "\\a"]
        = (["\\a", "\\a$1", "$2"] : List String).reverse ++ [] :=
  ⟨rfl, c7_namer_unique [(some "a", false), (some "a", false), (none, true)]
    0 [] ["\\a", "\\a$1", "$2"] 2 ["$2", "\\a$1", "\\a"] rfl⟩

theorem bind_err {α β : Type} (f : M α) (g : α → M β) (st st1 : ModState)
    (a : α) (e : Err) (hf : f st = .ok (a, st1)) (hg : g a st1 = .error e) :
    (f >>= g) st = .error e := by
  show (Monad.toBind.1 f g) st = _
  change (match f st with
    | .ok (a, st1) => g a st1
    | .error e => .error e) = _
  rw [hf]
  exact hg

/-- Claim C5: lowering a signal reference as an assignment target raises
an error exactly when the signal was never registered as driven (no next
wire exists); when it is driven, lowering succeeds and resolves to that
signal's next wire, as recorded in the resolver cache. -/
theorem c5_lhs_signal (fuel : Nat) (s : Signal) (st : ModState)
    (hw : WFS st) (hfresh : assoc st.wires s = none) (hname : s.name ≠ "") :
    ((∃ e, lhsCompile (fuel + 1) (.signal s) st = .error e) ↔
      assoc st.driven s = none) ∧
    (∀ spec st', lhsCompile (fuel + 1) (.signal s) st = .ok (spec, st') →
      ∃ c nxt, spec = .wire nxt ∧ assoc st'.wires s = some (c, some nxt)) := by
  obtain ⟨r, st1, hres⟩ := resolveFresh_isOk hw hname
  have hresolve : M.resolve s st = .ok (r, st1) := by
    have he : M.resolve s st = M.resolveFresh s st := by
      show (match assoc st.wires s with
        | some r0 => (pure r0 : M (String × Option String))
        | none => M.resolveFresh s) st = M.resolveFresh s st
      rw [hfresh]
    rw [he, hres]
  obtain ⟨c, nx⟩ := r
  obtain ⟨hw1, hev, hwires, hdc, hdn, hiff, hcnm, hdrv, hpts, hsub, hplog⟩ :=
    resolveFresh_ok hw hfresh hres
  cases nx with
  | none =>
    have hcompute : lhsCompile (fuel + 1) (.signal s) st =
        .error (Err.valueError
          ("Cannot return lhs for non-driven signal " ++ s.name)) := by
      rw [lhsCompile]
      exact bind_err _ _ _ _ (c, none) _ hresolve rfl
    constructor
    · constructor
      · intro _
        cases hdv : assoc st.driven s with
        | none => rfl
        | some b =>
          exfalso
          have hS : (Option.none : Option String).isSome := by
            exact hiff.mpr (by rw [hdv]; rfl)
          cases hS
      · intro _
        exact ⟨_, hcompute⟩
    · intro spec st2 hok
      rw [hcompute] at hok
      cases hok
  | some nxt =>
    have hcompute : lhsCompile (fuel + 1) (.signal s) st =
        .ok (SigSpec.wire nxt, st1) := by
      rw [lhsCompile]
      exact (bind_ok _ _ _ _ _).2 ⟨(c, some nxt), st1, hresolve, rfl⟩
    constructor
    · constructor
      · rintro ⟨e, he⟩
        rw [hcompute] at he
        cases he
      · intro hdv
        exfalso
        have hS := hiff.mp (by rfl)
        rw [hdv] at hS
        cases hS
    · intro spec st2 hok
      rw [hcompute] at hok
      injection hok with h1
      injection h1 with h2 h3
      refine ⟨c, nxt, h2.symm, ?_⟩
      rw [← h3, hwires, assoc_cons, if_pos rfl]

theorem WFS.init_driven (l : List (Signal × Bool)) :
    WFS { ModState.init with driven := l } := by
  refine ⟨?_, ?_, ?_, ?_, ?_, ?_⟩ <;> simp [ModState.init, assoc]

theorem c5_lhs_signal_witness :
    (WFS demoDrivenState ∧ assoc demoDrivenState.wires demoS = none ∧
      demoS.name ≠ "") ∧
    (((∃ e, lhsCompile 4 (.signal demoS) demoDrivenState = .error e) ↔
        assoc demoDrivenState.driven demoS = none) ∧
      (∀ spec st',
        lhsCompile 4 (.signal demoS) demoDrivenState = .ok (spec, st') →
        ∃ c nxt, spec = .wire nxt ∧ assoc st'.wires demoS = some (c, some nxt))) :=
  ⟨⟨WFS.init_driven _, rfl, by decide⟩,
    c5_lhs_signal 3 demoS demoDrivenState (WFS.init_driven _) rfl (by decide)⟩

/-- Claim C10: resolving a signal is idempotent. On a signal not yet in
the cache, the first resolve succeeds, declares the signal's current
wire at the signal's width (and a next wire, also at that width, exactly
when the signal is registered as driven), and a second resolve of the
same signal returns the identical (current, next) pair with a completely
unchanged state — so no further wire declarations or attributes are
emitted. -/
theorem c10_resolve_idempotent (s : Signal) (st : ModState)
    (hw : WFS st) (hfresh : assoc st.wires s = none) (hname : s.name ≠ "") :
    ∃ c nx st', M.resolve s st = .ok ((c, nx), st') ∧
      assoc st'.decls c = some s.nbits ∧
      (∀ n, nx = some n → assoc st'.decls n = some s.nbits) ∧
      (nx.isSome ↔ (assoc st.driven s).isSome) ∧
      M.resolve s st' = .ok ((c, nx), st') := by
  obtain ⟨r, st1, hres⟩ := resolveFresh_isOk hw hname
  obtain ⟨c, nx⟩ := r
  have hresolve : M.resolve s st = .ok ((c, nx), st1) := by
    have he : M.resolve s st = M.resolveFresh s st := by
      show (match assoc st.wires s with
        | some r0 => (pure r0 : M (String × Option String))
        | none => M.resolveFresh s) st = M.resolveFresh s st
      rw [hfresh]
    rw [he, hres]
  obtain ⟨hw1, hev, hwires, hdc, hdn, hiff, hcnm, hdrv, hpts, hsub, hplog⟩ :=
    resolveFresh_ok hw hfresh hres
  have hcache : assoc st1.wires s = some (c, nx) := by
    rw [hwires, assoc_cons, if_pos rfl]
  exact ⟨c, nx, st1, hresolve, hdc, hdn, hiff, resolve_cached hcache⟩

theorem c10_resolve_idempotent_witness :
    (WFS demoDrivenState ∧ assoc demoDrivenState.wires demoS = none ∧
      demoS.name ≠ "") ∧
    (∃ c nx st', M.resolve demoS demoDrivenState = .ok ((c, nx), st') ∧
      assoc st'.decls c = some demoS.nbits ∧
      (∀ n, nx = some n → assoc st'.decls n = some demoS.nbits) ∧
      (nx.isSome ↔ (assoc demoDrivenState.driven demoS).isSome) ∧
      M.resolve demoS st' = .ok ((c, nx), st')) :=
  ⟨⟨WFS.init_driven _, rfl, by decide⟩,
    c10_resolve_idempotent demoS demoDrivenState (WFS.init_driven _) rfl
      (by decide)⟩

/-- Claim C3 (amended): as assignment targets, constants, operators,
replications, part-selects, array proxies and clock/reset references
fail fast with an error; slice and concatenation targets, however, are
not rejected — the write-side compiler lowers them structurally by
delegating to their operands, exactly like the read side. -/
theorem c3_lhs_variants :
    (∀ fuel value nbits sg st,
      lhsCompile (fuel + 1) (.const value nbits sg) st = .error .typeError) ∧
    (∀ fuel op ops sh sf sl st,
      lhsCompile (fuel + 1) (.operator op ops sh sf sl) st
        = .error .typeError) ∧
    (∀ fuel v n st,
      lhsCompile (fuel + 1) (.repl v n) st = .error .typeError) ∧
    (∀ fuel v off w st,
      lhsCompile (fuel + 1) (.part v off w) st
        = .error .notImplementedError) ∧
    (∀ fuel st,
      lhsCompile (fuel + 1) .arrayProxy st = .error .notImplementedError) ∧
    (∀ fuel v a b st,
      lhsCompile (fuel + 1) (.slice v a b) st =
        (lhsCompile fuel v >>= fun inner =>
          pure (sliceSpec inner a b v.width)) st) ∧
    (∀ fuel ops st,
      lhsCompile (fuel + 1) (.cat ops) st =
        (lhsList fuel ops >>= fun specs => pure (.group specs.reverse)) st) :=
  ⟨fun _ _ _ _ _ => rfl, fun _ _ _ _ _ _ _ => rfl, fun _ _ _ _ => rfl,
    fun _ _ _ _ _ => rfl, fun _ _ => rfl, fun _ _ _ _ _ => rfl,
    fun _ _ _ => rfl⟩

theorem c3_counterexample :
    (lhsCompile 5 (.slice (.signal demoS) 0 1) demoDrivenState).toOption.map
        Prod.fst
      = some (.bitSel (.wire "\\s$next") 0) := by
  rfl

/-- Claim C1 (amended): after lowering, a binary cell built from
operands of differing signedness carries identically widened data
operands (both at `max` width, both signed), and a mux cell carries both
data operands at the common width `max (max l r) result`; but a binary
cell built from operands of the same signedness passes each operand's
own width through unchanged, so its A and B connections may have
different widths. -/
theorem c1_operand_widths :
    (∀ f op l r sh sf sl st spec st', l.vsigned = r.vsigned →
      onOperatorBinary (f + 1) op l r sh sf sl st = .ok (spec, st') →
      ∃ kind cnm aw bw res ml, st'.mlog = MEvent.cell kind cnm
        [("A_SIGNED", boolInt l.vsigned), ("A_WIDTH", (l.width : Int)),
         ("B_SIGNED", boolInt r.vsigned), ("B_WIDTH", (r.width : Int)),
         ("Y_WIDTH", (sh.1 : Int))]
        [("\\A", aw), ("\\B", bw), ("\\Y", res)] :: ml) ∧
    (∀ f op l r sh sf sl st spec st', WFS st → Value.wf l → Value.wf r →
      l.vsigned ≠ r.vsigned →
      onOperatorBinary (f + 1) op l r sh sf sl st = .ok (spec, st') →
      ∃ kind cnm aw bw res ml, st'.mlog = MEvent.cell kind cnm
        [("A_SIGNED", boolInt true),
         ("A_WIDTH", ((max l.width r.width : Nat) : Int)),
         ("B_SIGNED", boolInt true),
         ("B_WIDTH", ((max l.width r.width : Nat) : Int)),
         ("Y_WIDTH", (sh.1 : Int))]
        [("\\A", aw), ("\\B", bw), ("\\Y", res)] :: ml ∧
        specWidth st'.decls aw = max l.width r.width ∧
        specWidth st'.decls bw = max l.width r.width) ∧
    (∀ f sel l r sh sf sl st spec st', WFS st → Value.wf sel → Value.wf l →
      Value.wf r →
      onOperatorMux (f + 1) sel l r sh sf sl st = .ok (spec, st') →
      ∃ cnm aw bw sw res ml, st'.mlog = MEvent.cell "$mux" cnm
        [("WIDTH", ((max (max l.width r.width) sh.1) : Int))]
        [("\\A", aw), ("\\B", bw), ("\\S", sw), ("\\Y", res)] :: ml ∧
        specWidth st'.decls aw = max (max l.width r.width) sh.1 ∧
        specWidth st'.decls bw = max (max l.width r.width) sh.1) := by
  refine ⟨?_, ?_, ?_⟩
  · intro f op l r sh sf sl st spec st' hsg h
    rw [onOperatorBinary] at h
    rw [if_pos hsg] at h
    obtain ⟨lw0, stA, hL, h⟩ := (bind_ok _ _ _ _ _).1 h
    obtain ⟨rw0, stB, hR, h⟩ := (bind_ok _ _ _ _ _).1 h
    unfold binCell at h
    obtain ⟨res, stC, hW, h⟩ := (bind_ok _ _ _ _ _).1 h
    cases hmap : assoc operatorMap (2, op) with
    | none =>
      rw [hmap] at h
      cases h
    | some kind =>
      rw [hmap] at h
      dsimp only at h
      obtain ⟨u, stD, hC, h⟩ := (bind_ok _ _ _ _ _).1 h
      obtain ⟨hs, hst⟩ := (pure_ok _ _ _ _).1 h
      subst hst
      obtain ⟨hhead, i, hrest⟩ := cell_ok hC
      exact ⟨kind, u, lw0, rw0, .wire res, st'.mlog.tail, hhead⟩
  · intro f op l r sh sf sl st spec st' hw hwl hwr hsg h
    rw [onOperatorBinary] at h
    rw [if_neg hsg] at h
    obtain ⟨lw0, stA, hL, h⟩ := (bind_ok _ _ _ _ _).1 h
    obtain ⟨rw0, stB, hR, h⟩ := (bind_ok _ _ _ _ _).1 h
    obtain ⟨hwfsA, hevA, hplA, hswA⟩ :=
      (rhsMaster f).2.2.2.1 l (max l.width r.width) true st lw0 stA hw hwl
        (max_pos_or_left _ _) hL
    obtain ⟨hwfsB, hevB, hplB, hswB⟩ :=
      (rhsMaster f).2.2.2.1 r (max l.width r.width) true stA rw0 stB hwfsA hwr
        (max_pos_or_right _ _) hR
    unfold binCell at h
    obtain ⟨res, stC, hW, h⟩ := (bind_ok _ _ _ _ _).1 h
    cases hmap : assoc operatorMap (2, op) with
    | none =>
      rw [hmap] at h
      cases h
    | some kind =>
      rw [hmap] at h
      dsimp only at h
      obtain ⟨u, stD, hC, h⟩ := (bind_ok _ _ _ _ _).1 h
      obtain ⟨hs, hst⟩ := (pure_ok _ _ _ _).1 h
      subst hst
      obtain ⟨hfreshC, hshapeC⟩ := wire_ok hW
      obtain ⟨hwfsC, hevC, hdeclC, hmemC⟩ := wireShape_wfs hwfsB hfreshC hshapeC
      obtain ⟨hwfsD, hevD⟩ := cell_wfs hwfsC hC
      obtain ⟨hhead, i, hrest⟩ := cell_ok hC
      refine ⟨kind, u, lw0, rw0, .wire res, st'.mlog.tail, hhead, ?_, ?_⟩
      · exact hswA st' (hevB.trans (hevC.trans hevD))
      · exact hswB st' (hevC.trans hevD)
  · intro f sel l r sh sf sl st spec st' hw hwsel hwl hwr h
    rw [onOperatorMux] at h
    obtain ⟨lw0, stA, hL, h⟩ := (bind_ok _ _ _ _ _).1 h
    obtain ⟨rw0, stB, hR, h⟩ := (bind_ok _ _ _ _ _).1 h
    obtain ⟨res, stC, hW, h⟩ := (bind_ok _ _ _ _ _).1 h
    obtain ⟨sw, stD, hS, h⟩ := (bind_ok _ _ _ _ _).1 h
    obtain ⟨u, stE, hC, h⟩ := (bind_ok _ _ _ _ _).1 h
    obtain ⟨hs, hst⟩ := (pure_ok _ _ _ _).1 h
    subst hst
    have hposl : 0 < max (max l.width r.width) sh.1 ∨
        max (max l.width r.width) sh.1 = l.width := by
      rcases Nat.eq_zero_or_pos (max (max l.width r.width) sh.1) with h0 | hpos
      · right
        rw [h0]
        rw [Nat.max_eq_zero_iff] at h0
        have h01 := h0.1
        rw [Nat.max_eq_zero_iff] at h01
        exact h01.1.symm
      · left
        exact hpos
    have hposr : 0 < max (max l.width r.width) sh.1 ∨
        max (max l.width r.width) sh.1 = r.width := by
      rcases Nat.eq_zero_or_pos (max (max l.width r.width) sh.1) with h0 | hpos
      · right
        rw [h0]
        rw [Nat.max_eq_zero_iff] at h0
        have h01 := h0.1
        rw [Nat.max_eq_zero_iff] at h01
        exact h01.2.symm
      · left
        exact hpos
    obtain ⟨hwfsA, hevA, hplA, hswA⟩ :=
      (rhsMaster f).2.2.2.1 l (max (max l.width r.width) sh.1) l.vsigned st
        lw0 stA hw hwl hposl hL
    obtain ⟨hwfsB, hevB, hplB, hswB⟩ :=
      (rhsMaster f).2.2.2.1 r (max (max l.width r.width) sh.1) r.vsigned stA
        rw0 stB hwfsA hwr hposr hR
    obtain ⟨hfreshC, hshapeC⟩ := wire_ok hW
    obtain ⟨hwfsC, hevC, hdeclC, hmemC⟩ := wireShape_wfs hwfsB hfreshC hshapeC
    obtain ⟨hwfsD, hevD, hplD, hswD⟩ :=
      (rhsMaster f).1 sel stC sw stD hwfsC hwsel hS
    obtain ⟨hwfsE, hevE⟩ := cell_wfs hwfsD hC
    obtain ⟨hhead, i, hrest⟩ := cell_ok hC
    refine ⟨u, lw0, rw0, sw, .wire res, st'.mlog.tail, hhead, ?_, ?_⟩
    · exact hswA st' (hevB.trans (hevC.trans (hevD.trans hevE)))
    · exact hswB st' (hevC.trans (hevD.trans hevE))

theorem c1_counterexample :
    headCellParams c1runSameSign
        = some [("A_SIGNED", 0), ("A_WIDTH", 4), ("B_SIGNED", 0),
            ("B_WIDTH", 8), ("Y_WIDTH", 9)] ∧
      headCellPortWidths c1runSameSign = some [4, 8, 9] ∧ (4 : Nat) ≠ 8 :=
  ⟨rfl, rfl, by decide⟩

theorem c1_operand_widths_witness :
    (WFS ModState.init ∧
      Value.wf (.signal demoB8) ∧ Value.wf (.signal demoC4s) ∧
      (Value.signal demoB8).vsigned ≠ (Value.signal demoC4s).vsigned ∧
      onOperatorBinary 10 "+" (.signal demoB8) (.signal demoC4s) (9, false)
        "demo.py" 6 ModState.init = .ok (c1diffRes.1, c1diffRes.2)) ∧
    (∃ kind cnm aw bw res ml, c1diffRes.2.mlog = MEvent.cell kind cnm
      [("A_SIGNED", boolInt true), ("A_WIDTH", ((8 : Nat) : Int)),
       ("B_SIGNED", boolInt true), ("B_WIDTH", ((8 : Nat) : Int)),
       ("Y_WIDTH", ((9 : Nat) : Int))]
      [("\\A", aw), ("\\B", bw), ("\\Y", res)] :: ml ∧
      specWidth c1diffRes.2.decls aw = 8 ∧
      specWidth c1diffRes.2.decls bw = 8) :=
  ⟨⟨WFS.init_mlog [], trivial, trivial, by decide, rfl⟩,
    c1_operand_widths.2.1 9 "+" (.signal demoB8) (.signal demoC4s) (9, false)
      "demo.py" 6 ModState.init c1diffRes.1 c1diffRes.2 (WFS.init_mlog [])
      trivial trivial (by decide) rfl⟩

/-- Claim C2 (amended): an `Assign` whose sides have different widths
lowers the right-hand side first, coerced to the left-hand side's exact
declared width via width/sign matching — using the right-hand side's own
signedness, not the destination's — and only then lowers the
left-hand-side wire and emits the connection. -/
theorem c2_assign_coercion (f : Nat) (l r : Value) (st st' : ModState)
    (hw : WFS st) (hwr : Value.wf r) (hne : ¬l.width = r.width)
    (hpos : 0 < l.width)
    (h : convertStmt (f + 1) (.assign l r) st = .ok ((), st')) :
    ∃ rs st1 ls st2,
      matchShape f r l.width r.vsigned st = .ok (rs, st1) ∧
      lhsCompile f l st1 = .ok (ls, st2) ∧
      st' = { st2 with plog := PEvent.assign ls rs :: st2.plog } ∧
      specWidth st'.decls rs = l.width := by
  rw [convertStmt] at h
  rw [if_neg hne] at h
  obtain ⟨rs, st1, hM, h⟩ := (bind_ok _ _ _ _ _).1 h
  obtain ⟨ls, st2, hL, h⟩ := (bind_ok _ _ _ _ _).1 h
  have hst' := emitP_ok h
  obtain ⟨hwfs1, hev1, hpl1, hsw⟩ :=
    (rhsMaster f).2.2.2.1 r l.width r.vsigned st rs st1 hw hwr (Or.inl hpos) hM
  obtain ⟨hwfs2, hev2, hpl2⟩ := (lhsMaster f).1 l st1 ls st2 hwfs1 hL
  refine ⟨rs, st1, ls, st2, hM, hL, hst', ?_⟩
  subst hst'
  exact hsw _ (hev2.trans ⟨fun n w hx => hx, fun n hx => hx, fun s r0 hx => hx⟩)

theorem c2_assign_coercion_witness :
    (WFS demoDrivenState ∧ Value.wf (.const (-1) 4 true) ∧
      ¬(Value.signal demoS).width = (Value.const (-1) 4 true).width ∧
      0 < (Value.signal demoS).width ∧
      convertStmt 10 (.assign (.signal demoS) (.const (-1) 4 true))
        demoDrivenState = .ok ((), c2res.2)) ∧
    (∃ rs st1 ls st2,
      matchShape 9 (.const (-1) 4 true) (Value.signal demoS).width
          (Value.const (-1) 4 true).vsigned demoDrivenState = .ok (rs, st1) ∧
      lhsCompile 9 (.signal demoS) st1 = .ok (ls, st2) ∧
      c2res.2 = { st2 with plog := PEvent.assign ls rs :: st2.plog } ∧
      specWidth c2res.2.decls rs = (Value.signal demoS).width) :=
  ⟨⟨WFS.init_driven _, trivial, by decide, by decide, rfl⟩,
    c2_assign_coercion 9 (.signal demoS) (.const (-1) 4 true) demoDrivenState
      c2res.2 (WFS.init_driven _) trivial (by decide) (by decide) rfl⟩

theorem c2_counterexample :
    headAssignRhs c2run = some (.constBits 8 "-1") ∧
    runSpec (matchShape 9 (.const (-1) 4 true) 8 false demoDrivenState)
      = some (.constBits 8 "11111111") ∧
    (SigSpec.constBits 8 "-1") ≠ (SigSpec.constBits 8 "11111111") :=
  ⟨rfl, rfl, by intro hx; injection hx with h1 h2; exact absurd h2 (by decide)⟩

/-- Claim C4 (amended): for the spec's example — a combinational driven
signal of width 8 with reset value 5, never assigned — the emitted
process consists of exactly a process start, the default-case assign of
the signal's next wire, the init and always trigger blocks, and the
update copying next into current; and the default-case assign writes the
binary rendering of the normalized reset constant, which Python's
unpadded format produces as the literal `8'101`, not a width-wide
zero-padded string. -/
theorem c4_reset_default :
    c4plog.reverse = [PEvent.processStart "$1",
      PEvent.assign (.wire "\\s$next")
        (.constBits demoS.nbits
          (intBin (constNormalize demoS.reset demoS.nbits false))),
      PEvent.syncStart "init" none, PEvent.syncStart "always" none,
      PEvent.update "\\s" (.wire "\\s$next")] ∧
    intBin (constNormalize demoS.reset demoS.nbits false) = "101" :=
  ⟨rfl, rfl⟩

theorem c4_counterexample :
    firstAssignRhs c4plog.reverse = some (.constBits 8 "101") ∧
    "101" ≠ "00000101" :=
  ⟨rfl, by decide⟩

theorem resolveCurr_cached {s : Signal} {st : ModState}
    {r : String × Option String} (h : assoc st.wires s = some r) :
    M.resolveCurr s st = .ok (r.1, st) := by
  unfold M.resolveCurr
  exact (bind_ok _ _ _ _ _).2 ⟨r, st, resolve_cached h, rfl⟩

theorem updatesFor_ok :
    ∀ (signals : List Signal) (st : ModState),
      signals.all (fun s => (assoc st.wires s).isSome) = true →
      updatesFor signals st =
        .ok ((), { st with
          plog := (updateEventsFor st signals).reverse ++ st.plog }) := by
  intro signals
  induction signals with
  | nil => intro st _; rfl
  | cons s rest ih =>
    intro st hc
    rw [List.all_cons, Bool.and_eq_true] at hc
    obtain ⟨hr0, hrest⟩ := hc
    obtain ⟨r, hr⟩ := Option.isSome_iff_exists.1 hr0
    rw [updatesFor]
    refine (bind_ok _ _ _ _ _).2 ⟨r, st, resolve_cached hr, ?_⟩
    refine (bind_ok _ _ _ _ _).2
      ⟨(), { st with plog :=
        PEvent.update r.1 (.wire (r.2.getD "None")) :: st.plog }, rfl, ?_⟩
    have hev : updateEventsFor st (s :: rest) =
        PEvent.update r.1 (.wire (r.2.getD "None")) ::
          updateEventsFor st rest := by
      unfold updateEventsFor cachedPair
      rw [List.map_cons, hr]
      rfl
    rw [ih { st with plog := PEvent.update r.1 (SigSpec.wire (r.2.getD "None")) :: st.plog } hrest, hev, List.reverse_cons, List.append_assoc]
    rfl

theorem emitTriggers_ok :
    ∀ (triggers : List (String × Option String)) (signals : List Signal)
      (st : ModState),
      signals.all (fun s => (assoc st.wires s).isSome) = true →
      emitTriggers signals triggers st =
        .ok ((), { st with plog :=
          (triggers.flatMap (fun t =>
            PEvent.syncStart t.1 t.2 ::
              updateEventsFor st signals)).reverse ++ st.plog }) := by
  intro triggers
  induction triggers with
  | nil => intro signals st _; rfl
  | cons t rest ih =>
    intro signals st hc
    obtain ⟨kind, cond⟩ := t
    rw [emitTriggers]
    refine (bind_ok _ _ _ _ _).2 ⟨(), { st with plog := PEvent.syncStart kind cond :: st.plog }, rfl, ?_⟩
    refine (bind_ok _ _ _ _ _).2 ⟨(), _, updatesFor_ok signals { st with plog := PEvent.syncStart kind cond :: st.plog } hc, ?_⟩
    refine Eq.trans (ih signals _ hc) ?_
    simp only [List.flatMap_cons, List.reverse_append, List.reverse_cons,
      List.append_assoc, List.singleton_append, List.cons_append,
      List.nil_append]
    rfl

theorem cachedPair_plog (st : ModState) (l : List PEvent) (s : Signal) :
    cachedPair { st with plog := l } s = cachedPair st s := rfl

theorem updateEventsFor_plog (st : ModState) (l : List PEvent)
    (signals : List Signal) :
    updateEventsFor { st with plog := l } signals =
      updateEventsFor st signals := rfl

theorem domainTriggers_plog (doms : List (String × ClockDomain))
    (st : ModState) (l : List PEvent) (domain : Option String) :
    domainTriggers doms { st with plog := l } domain =
      domainTriggers doms st domain := by
  cases domain with
  | none => rfl
  | some d =>
    unfold domainTriggers
    cases assoc doms d with
    | none => rfl
    | some cd => rfl

theorem syncExpected_plog (doms : List (String × ClockDomain))
    (st : ModState) (l : List PEvent) :
    ∀ groups, syncExpected doms { st with plog := l } groups =
      syncExpected doms st groups := by
  intro groups
  induction groups with
  | nil => rfl
  | cons g rest ih =>
    obtain ⟨domain, signals⟩ := g
    rw [syncExpected, syncExpected, ih]
    simp only [domainTriggers_plog, updateEventsFor_plog]

/-- Claim C6: when every needed wire is already cached, the
edge-triggered section emits, per driven-signal group, exactly the
trigger blocks of `domainTriggers` — one always block for a
combinational (absent) domain; one positive-clock-edge block for a
synchronous domain, plus one additional positive-reset-edge block
exactly when the domain's reset is asynchronous — each block containing
one update per driven signal copying its next wire into its current
wire, and changes nothing else in the state. -/
theorem c6_trigger_blocks :
    ∀ (groups : List (Option String × List Signal))
      (doms : List (String × ClockDomain)) (st : ModState),
      syncReady doms st groups = true →
      syncSection doms groups st =
        .ok ((), { st with
          plog := (syncExpected doms st groups).reverse ++ st.plog }) := by
  intro groups
  induction groups with
  | nil => intro doms st _; rfl
  | cons g rest ih =>
    intro doms st hready
    obtain ⟨domain, signals⟩ := g
    rw [syncReady, List.all_cons, Bool.and_eq_true] at hready
    obtain ⟨hhead, htail⟩ := hready
    dsimp only at hhead
    rw [Bool.and_eq_true] at hhead
    obtain ⟨hsigs, hdom⟩ := hhead
    rw [syncSection.eq_def]
    dsimp only
    cases domain with
    | none =>
      refine (bind_ok _ _ _ _ _).2 ⟨[("always", none)], st, rfl, ?_⟩
      refine (bind_ok _ _ _ _ _).2
        ⟨(), _, emitTriggers_ok [("always", none)] signals st hsigs, ?_⟩
      refine Eq.trans (ih doms _ htail) ?_
      simp only [syncExpected, domainTriggers, syncExpected_plog,
        List.reverse_append, List.append_assoc]
    | some d =>
      dsimp only at hdom ⊢
      cases hcd : assoc doms d with
      | none =>
        rw [hcd] at hdom
        cases hdom
      | some cd =>
        rw [hcd] at hdom
        dsimp only at hdom
        rw [Bool.and_eq_true] at hdom
        obtain ⟨hclk, hrst⟩ := hdom
        obtain ⟨rc, hrc⟩ := Option.isSome_iff_exists.1 hclk
        dsimp only
        refine (bind_ok _ _ _ _ _).2 ⟨rc.1, st, resolveCurr_cached hrc, ?_⟩
        by_cases har : cd.asyncReset = true
        · rw [if_pos har]
          rw [har] at hrst
          rw [show (!true) = false from rfl, Bool.false_or] at hrst
          cases hcr : cd.rst with
          | none =>
            rw [hcr] at hrst
            dsimp only at hrst
            cases hrst
          | some rsig =>
            rw [hcr] at hrst
            dsimp only at hrst
            obtain ⟨rr, hrr⟩ := Option.isSome_iff_exists.1 hrst
            dsimp only
            refine (bind_ok _ _ _ _ _).2 ⟨rr.1, st, resolveCurr_cached hrr, ?_⟩
            refine (bind_ok _ _ _ _ _).2
              ⟨[("posedge", some rc.1), ("posedge", some rr.1)], st, rfl, ?_⟩
            refine (bind_ok _ _ _ _ _).2
              ⟨(), _, emitTriggers_ok
                [("posedge", some rc.1), ("posedge", some rr.1)]
                signals st hsigs, ?_⟩
            refine Eq.trans (ih doms _ htail) ?_
            have hDT : domainTriggers doms st (some d) =
                [("posedge", some rc.1), ("posedge", some rr.1)] := by
              unfold domainTriggers
              dsimp only
              rw [hcd]
              dsimp only
              rw [if_pos har, hcr]
              dsimp only
              unfold cachedPair
              rw [hrc, hrr]
              rfl
            simp only [syncExpected, hDT, syncExpected_plog,
              List.reverse_append, List.append_assoc]
        · rw [if_neg har]
          refine (bind_ok _ _ _ _ _).2
            ⟨[("posedge", some rc.1)], st, rfl, ?_⟩
          refine (bind_ok _ _ _ _ _).2
            ⟨(), _, emitTriggers_ok [("posedge", some rc.1)] signals st
              hsigs, ?_⟩
          refine Eq.trans (ih doms _ htail) ?_
          have hDT : domainTriggers doms st (some d) =
              [("posedge", some rc.1)] := by
            unfold domainTriggers
            dsimp only
            rw [hcd]
            dsimp only
            rw [if_neg har]
            unfold cachedPair
            rw [hrc]
            rfl
          simp only [syncExpected, hDT, syncExpected_plog,
            List.reverse_append, List.append_assoc]

theorem c6_trigger_blocks_witness :
    syncReady c6doms c6state c6groups = true ∧
    syncSection c6doms c6groups c6state =
      .ok ((), { c6state with plog := (syncExpected c6doms c6state c6groups).reverse ++ c6state.plog }) :=
  ⟨rfl, c6_trigger_blocks c6groups c6doms c6state rfl⟩

/-- Claim C8: the port-map collection returns, for ports whose signals
are already resolved (as `convert_fragment` guarantees by lowering every
port eagerly), exactly one entry per port signal, in port order, keyed
by the signal's cached current-wire name with the signal itself as
value, without touching the state; and in particular converting a
fragment whose sole port is the output `P` returns the one-entry map
from `P`'s current-wire name to `P`. -/
theorem c8_port_map :
    (∀ (ports : List (Signal × String)) (st : ModState),
      ports.all (fun p => (assoc st.wires p.1).isSome) = true →
      portMapSection ports st =
        .ok (ports.map (fun p => ((cachedPair st p.1).1, p.1)), st)) ∧
    portMapOf c8run = some [("\\p", demoP)] := by
  constructor
  · intro ports
    induction ports with
    | nil => intro st _; rfl
    | cons q rest ih =>
      intro st hc
      obtain ⟨s, k⟩ := q
      rw [List.all_cons, Bool.and_eq_true] at hc
      obtain ⟨h1, h2⟩ := hc
      dsimp only at h1
      obtain ⟨r, hr⟩ := Option.isSome_iff_exists.1 h1
      rw [portMapSection]
      refine (bind_ok _ _ _ _ _).2 ⟨r.1, st, resolveCurr_cached hr, ?_⟩
      refine (bind_ok _ _ _ _ _).2 ⟨_, st, ih st h2, ?_⟩
      have hcp : (cachedPair st s).1 = r.1 := by
        unfold cachedPair
        rw [hr]
        rfl
      rw [List.map_cons]
      dsimp only
      rw [hcp]
      rfl
  · rfl

theorem c8_port_map_witness :
    (([(demoS, "o")] : List (Signal × String)).all
        (fun p => (assoc c6state.wires p.1).isSome) = true) ∧
    portMapSection [(demoS, "o")] c6state =
      .ok ([(demoS, "o")].map
        (fun p => ((cachedPair c6state p.1).1, p.1)), c6state) :=
  ⟨rfl, c8_port_map.1 [(demoS, "o")] c6state rfl⟩
